import Mathlib

/-!
# Verification of the maze generator (`maze.py`)

Shallow embedding of the maze library: a randomized Kruskal-style maze
builder over a union-find ("goal grid") structure, with compact and block
coordinate systems, passage queries and text rendering.

Python integers are modelled as `Int`; Python `//` is `Int.fdiv` and `%` is
`Int.emod` (both agree with Python's floor conventions for positive
divisors).  Python lists indexed by possibly-negative indices wrap around
(`xs[-1]` is the last element); this is modelled by `pyIndex` below, which
matters for `hasBlockAt` at the West/North borders.  The mutable grids of
the source are modelled as functions from locations, updated with
`Function.update`; the recursive, path-compressing `goal` lookup is
modelled with explicit fuel (`goalAux`), since its termination depends on
an acyclicity invariant of the state.
-/

/-- `GridLocation` from maze.py line 5: a pair of integer coordinates. -/
structure GridLocation where
  x : Int
  y : Int
deriving DecidableEq, Repr

/-- A cell of the union-find grid: `GoalLocation` (a root, storing a
location) or `CanAccess` (a pointer to another cell), maze.py lines 7-32. -/
inductive Cell where
  | Root (l : GridLocation)
  | CanAccess (l : GridLocation)
deriving DecidableEq, Repr

/-- The union-find goal grid (maze.py `GoalGrid`), as a total map from
locations to cells; the builder only ever reads or writes in-range cells. -/
def GoalGridF : Type := GridLocation → Cell

/-- The passage grid (maze.py `Grid` holding direction lists), as a total
map from locations to direction-character lists. -/
def WayGridF : Type := GridLocation → List Char

/-- `p` lies in the compact W×H range `[0,W)×[0,H)`. -/
def inRange (W H : Nat) (p : GridLocation) : Prop :=
  0 ≤ p.x ∧ p.x < (W : Int) ∧ 0 ≤ p.y ∧ p.y < (H : Int)

instance (W H : Nat) (p : GridLocation) : Decidable (inRange W H p) := by
  unfold inRange; infer_instance

/-- The initial goal grid: every cell is a `GoalLocation` holding its own
coordinates (maze.py lines 36-40). -/
def initGoalGrid : GoalGridF := fun p => Cell.Root p

/-- The initial passage grid: every cell holds the empty list
(maze.py line 201, `Grid([],width,height)`). -/
def initWayGrid : WayGridF := fun _ => []

/-- Fuelled model of `GoalGrid.__getitem__` / `.goal` (maze.py lines 15-16,
26-32, 47-49): a root returns its stored location; a pointer resolves its
target recursively and is then destructively repointed at the result (path
compression).  `none` models non-termination of the Python recursion. -/
def goalAux : Nat → GoalGridF → GridLocation → Option (GridLocation × GoalGridF)
  | 0, _, _ => none
  | k+1, g, p =>
    match g p with
    | Cell.Root l => some (l, g)
    | Cell.CanAccess q =>
      match goalAux k g q with
      | none => none
      | some (r, g1) => some (r, Function.update g1 p (Cell.CanAccess r))

/-- Fuel used by the builder's goal lookups: on any state satisfying the
union-find invariant of a W×H grid, chains are shorter than `W*H + 1`, so
this fuel always suffices (proved below); the default branch is
unreachable in the builder. -/
def goalT (W H : Nat) (g : GoalGridF) (p : GridLocation) : GridLocation × GoalGridF :=
  match goalAux (W * H + 1) g p with
  | some r => r
  | none => (p, g)

/-- `GoalGrid.setGoal` (maze.py lines 41-46): resolve `p1` to its current
representative `q1` (with path compression), then overwrite `q1`'s cell
with a pointer to `p2` (to `p2` itself, not to `p2`'s representative). -/
def setGoal (W H : Nat) (g : GoalGridF) (p1 p2 : GridLocation) : GoalGridF :=
  let r := goalT W H g p1
  Function.update r.2 r.1 (Cell.CanAccess p2)

/-- `self.wayGrid[p].append(w)` (maze.py lines 211, 215). -/
def appendWay (ways : WayGridF) (p : GridLocation) (w : Char) : WayGridF :=
  Function.update ways p (ways p ++ [w])

/-- The candidate edge list (maze.py lines 202-205):
`[(i,j,w) for w in "ES" for i in range(0,width) for j in range(0,height)]`. -/
def wallsList (W H : Nat) : List (Int × Int × Char) :=
  ['E', 'S'].flatMap fun w =>
    (List.range W).flatMap fun (i : Nat) =>
      (List.range H).map fun (j : Nat) => ((i : Int), (j : Int), w)

/-- The body shared by the two guarded branches of the builder loop
(maze.py lines 208-215): look up the goals of `A` and `B` in sequence
(both lookups compress the goal grid, and the compressions persist even
when the edge is then skipped); if the goals differ, union `A` into `B`
and record the direction character `w` at `A`. -/
def tryEdge (W H : Nat) (s : GoalGridF × WayGridF) (A B : GridLocation)
    (w : Char) : GoalGridF × WayGridF :=
  let a := goalT W H s.1 A
  let b := goalT W H a.2 B
  if a.1 = b.1 then (b.2, s.2)
  else (setGoal W H b.2 A B, appendWay s.2 A w)

/-- One iteration of the builder loop (maze.py lines 207-215): for an edge
`(x,y,w)`, each of the two `if` statements fires when its direction guard
passes (at most one can, since `w` is a single character). -/
def mazeStep (W H : Nat) (s : GoalGridF × WayGridF) (e : Int × Int × Char) :
    GoalGridF × WayGridF :=
  let x := e.1
  let y := e.2.1
  let w := e.2.2
  let s1 :=
    if w = 'E' ∧ x < (W : Int) - 1 then tryEdge W H s ⟨x, y⟩ ⟨x + 1, y⟩ w else s
  if w = 'S' ∧ y < (H : Int) - 1 then tryEdge W H s1 ⟨x, y⟩ ⟨x, y + 1⟩ w else s1

/-- `Maze.__init__` (maze.py lines 193-215) run on an explicit edge order
`L` (the source obtains `L` by shuffling `wallsList` in place). -/
def buildMaze (W H : Nat) (L : List (Int × Int × Char)) : GoalGridF × WayGridF :=
  L.foldl (mazeStep W H) (initGoalGrid, initWayGrid)

/-- The passage grid of the built maze. -/
def buildWays (W H : Nat) (L : List (Int × Int × Char)) : WayGridF :=
  (buildMaze W H L).2

/-- `ways` is the passage grid of a maze built from some permutation of the
candidate edge list (maze.py line 206 shuffles `wallsList` in place). -/
def IsBuilt (W H : Nat) (ways : WayGridF) : Prop :=
  ∃ L, L.Perm (wallsList W H) ∧ buildWays W H L = ways

/-- `compactToBlock` (maze.py lines 61-62). -/
def compactToBlock (p : GridLocation) : GridLocation :=
  ⟨p.x * 2 + 1, p.y * 2 + 1⟩

/-- `blockToCompact` (maze.py lines 64-65): Python `//` is floor division
(`Int.fdiv`) and `%` on a positive modulus is `Int.emod`. -/
def blockToCompact (p : GridLocation) : Option GridLocation :=
  if p.x % 2 = 1 ∧ p.y % 2 = 1 then some ⟨p.x.fdiv 2, p.y.fdiv 2⟩ else none

/-- `Maze.waysFrom` (maze.py lines 216-230). -/
def waysFrom (W H : Nat) (ways : WayGridF) (p : GridLocation) : List Char :=
  if 0 ≤ p.x ∧ p.x < (W : Int) ∧ 0 ≤ p.y ∧ p.y < (H : Int) then
    let base := ways p
    let base2 := if 0 < p.x ∧ 'E' ∈ ways ⟨p.x - 1, p.y⟩ then base ++ ['W'] else base
    if 0 < p.y ∧ 'S' ∈ ways ⟨p.x, p.y - 1⟩ then base2 ++ ['N'] else base2
  else []

/-- Python list indexing: a negative index wraps around from the end
(`xs[-1]` is the last element).  Indices below `-n` would raise in Python;
they are unreachable in the translated code paths. -/
def pyIndex (n : Nat) (i : Int) : Int :=
  if i < 0 then i + n else i

/-- A read `self.wayGrid[GridLocation(i,j)]` with Python index semantics:
the row index `j` wraps in the height-`H` row list and the column index
`i` wraps in the width-`W` cell list.  `hasBlockAt` reaches index `-1`
at the West and North borders. -/
def wayAt (W H : Nat) (ways : WayGridF) (i j : Int) : List Char :=
  ways ⟨pyIndex W i, pyIndex H j⟩

/-- `Maze.hasBlockAt` (maze.py lines 231-238).  The `//` index arithmetic
is floor division; at the borders it produces compact index `-1`, which
Python list indexing wraps to the last column or row (`wayAt`). -/
def hasBlockAt (W H : Nat) (ways : WayGridF) (p : GridLocation) : Bool :=
  decide (p.x < 0) || decide (p.y < 0) ||
    decide ((W : Int) * 2 + 1 ≤ p.x) || decide ((H : Int) * 2 + 1 ≤ p.y) ||
    (decide (p.x % 2 = 0) && decide (p.y % 2 = 0)) ||
    (decide (p.x % 2 = 0) && decide (p.y % 2 = 1) &&
      !((wayAt W H ways ((p.x - 1).fdiv 2) (p.y.fdiv 2)).contains 'E')) ||
    (decide (p.x % 2 = 1) && decide (p.y % 2 = 0) &&
      !((wayAt W H ways (p.x.fdiv 2) ((p.y - 1).fdiv 2)).contains 'S'))

/-- `Maze.__drawRow` (maze.py lines 239-241): the characters written for
one row of the block grid. -/
def drawRow (W H : Nat) (ways : WayGridF) (block space : Char) (y : Int) : String :=
  String.mk ((List.range (W * 2 + 1)).map fun (x : Nat) =>
    if hasBlockAt W H ways ⟨(x : Int), y⟩ then block else space)

/-- `Maze.drawBlocks` (maze.py lines 242-252): row 0, then `"\n"` plus the
row, for each `y` in `range(1, blocksHeight)`. -/
def drawBlocks (W H : Nat) (ways : WayGridF) (block space : Char) : String :=
  (List.range' 1 (H * 2)).foldl
    (fun acc (y : Nat) => acc ++ "\n" ++ drawRow W H ways block space (y : Int))
    (drawRow W H ways block space 0)

/-- Invariant of the passage grid maintained by the builder: every stored
direction character sits at an in-range cell, `'E'` only strictly left of
the last column, `'S'` only strictly above the last row (the guards at
maze.py lines 208 and 212). -/
def WaysOK (W H : Nat) (ways : WayGridF) : Prop :=
  ∀ p c, c ∈ ways p → inRange W H p ∧
    ((c = 'E' ∧ p.x < (W : Int) - 1) ∨ (c = 'S' ∧ p.y < (H : Int) - 1))

/-- The spec's notion of "the compact cell `p` has an East passage stored":
`p` is an actual cell of the Passage Grid and holds `'E'`. -/
def storedE (W H : Nat) (ways : WayGridF) (p : GridLocation) : Prop :=
  inRange W H p ∧ 'E' ∈ ways p

/-- The spec's notion of "the compact cell `p` has a South passage stored". -/
def storedS (W H : Nat) (ways : WayGridF) (p : GridLocation) : Prop :=
  inRange W H p ∧ 'S' ∈ ways p

instance (W H : Nat) (ways : WayGridF) (p : GridLocation) :
    Decidable (storedE W H ways p) := by unfold storedE; infer_instance

instance (W H : Nat) (ways : WayGridF) (p : GridLocation) :
    Decidable (storedS W H ways p) := by unfold storedS; infer_instance

/-- `waysFrom` as the spec describes it (claim C4): out-of-range queries
give the empty sequence; otherwise the cell's own stored passages in
stored order, then `'W'` if the West neighbour has an East passage stored,
then `'N'` if the North neighbour has a South passage stored. -/
def waysFromSpec (W H : Nat) (ways : WayGridF) (p : GridLocation) : List Char :=
  if inRange W H p then
    ways p ++ (if storedE W H ways ⟨p.x - 1, p.y⟩ then ['W'] else []) ++
      (if storedS W H ways ⟨p.x, p.y - 1⟩ then ['N'] else [])
  else []

/-- `p` lies in the block range `[0,blocksWidth)×[0,blocksHeight)`. -/
def inBlockRange (W H : Nat) (p : GridLocation) : Prop :=
  0 ≤ p.x ∧ p.x < (W : Int) * 2 + 1 ∧ 0 ≤ p.y ∧ p.y < (H : Int) * 2 + 1

instance (W H : Nat) (p : GridLocation) : Decidable (inBlockRange W H p) := by
  unfold inBlockRange; infer_instance

/-- `hasBlockAt` as claim C3 describes it: a wall exactly when out of the
block range, or at an even/even position, or at an odd-x/even-y position
whose corresponding compact cell has no South passage stored, or at an
even-x/odd-y position whose corresponding compact cell has no East
passage stored. -/
def hasBlockSpec (W H : Nat) (ways : WayGridF) (p : GridLocation) : Prop :=
  ¬ inBlockRange W H p ∨
    (Even p.x ∧ Even p.y) ∨
    (Odd p.x ∧ Even p.y ∧ ¬ storedS W H ways ⟨p.x.fdiv 2, (p.y - 1).fdiv 2⟩) ∨
    (Even p.x ∧ Odd p.y ∧ ¬ storedE W H ways ⟨(p.x - 1).fdiv 2, p.y.fdiv 2⟩)

/-- The rows of the `drawBlocks` rendering as claim C10 describes them:
`blocksHeight` strings of `blocksWidth` characters, `block` where
`hasBlockAt` holds and `space` elsewhere. -/
def specRows (W H : Nat) (ways : WayGridF) (block space : Char) : List String :=
  (List.range (H * 2 + 1)).map fun (y : Nat) =>
    String.mk ((List.range (W * 2 + 1)).map fun (x : Nat) =>
      if hasBlockAt W H ways ⟨(x : Int), (y : Int)⟩ then block else space)

/-- Adjacency induced by the Passage Grid: a stored `'E'` connects a cell
with its East neighbour, a stored `'S'` with its South neighbour, in both
directions. -/
def adjWays (ways : WayGridF) (p q : GridLocation) : Prop :=
  ('E' ∈ ways p ∧ q = ⟨p.x + 1, p.y⟩) ∨ ('S' ∈ ways p ∧ q = ⟨p.x, p.y + 1⟩) ∨
    ('E' ∈ ways q ∧ p = ⟨q.x + 1, q.y⟩) ∨ ('S' ∈ ways q ∧ p = ⟨q.x, q.y + 1⟩)

/-- Reachability through recorded passages, treating them as bidirectional
edges. -/
def Reach (ways : WayGridF) : GridLocation → GridLocation → Prop :=
  Relation.ReflTransGen (adjWays ways)

/-- The far endpoint of the passage recorded as character `c` at cell `p`. -/
def passTarget (p : GridLocation) (c : Char) : GridLocation :=
  if c = 'E' then ⟨p.x + 1, p.y⟩ else ⟨p.x, p.y + 1⟩

/-- The passage grid with one occurrence of `c` removed at `p`. -/
def erasePass (ways : WayGridF) (p : GridLocation) (c : Char) : WayGridF :=
  Function.update ways p ((ways p).erase c)

/-- The Python `goal` recursion at `p` runs forever on state `g`: no amount
of fuel makes the fuelled model return. -/
def goalDiverges (g : GoalGridF) (p : GridLocation) : Prop :=
  ∀ f, goalAux f g p = none

/-- The finite set of in-range compact cells. -/
def inRangeFinset (W H : Nat) : Finset GridLocation :=
  ((Finset.range W) ×ˢ (Finset.range H)).image fun ij =>
    (⟨(ij.1 : Int), (ij.2 : Int)⟩ : GridLocation)

/-- Total number of recorded passages. -/
def passTotal (W H : Nat) (ways : WayGridF) : Nat :=
  Finset.sum (inRangeFinset W H) fun p => (ways p).length

/-- Number of distinct representatives (connected components) under `rep`. -/
def compTotal (W H : Nat) (rep : GridLocation → GridLocation) : Nat :=
  ((inRangeFinset W H).image rep).card

/-- Number of in-range cells whose representative is `r`. -/
def compCard (W H : Nat) (rep : GridLocation → GridLocation)
    (r : GridLocation) : Nat :=
  ((inRangeFinset W H).filter fun q => rep q = r).card

/-- Union-find invariant of a goal grid `g`, certified by an abstract
representative map `rep` and a strictly-decreasing measure `d` along
pointer chains.  `rep` and `d` are the proof's certificates; the grid
itself stores only `Root`/`CanAccess` cells. -/
structure UFInv (W H : Nat) (g : GoalGridF) (rep : GridLocation → GridLocation)
    (d : GridLocation → Nat) : Prop where
  root : ∀ p l, inRange W H p → g p = Cell.Root l → l = p ∧ rep p = p
  point : ∀ p q, inRange W H p → g p = Cell.CanAccess q →
    inRange W H q ∧ rep q = rep p ∧ d q < d p
  out : ∀ p, ¬ inRange W H p → g p = Cell.Root p
  rep_inR : ∀ p, inRange W H p → inRange W H (rep p)
  rep_idem : ∀ p, inRange W H p → rep (rep p) = rep p

/-- The measure of every cell is below the size of its component; this
bounds chain length by `W*H`, so the builder's fixed fuel suffices. -/
def CardOK (W H : Nat) (rep : GridLocation → GridLocation)
    (d : GridLocation → Nat) : Prop :=
  ∀ p, inRange W H p → d p < compCard W H rep (rep p)

/-- Full invariant of the builder state: the union-find invariant, the
measure bound, the passage-grid guards, at most one copy of each direction
per cell, the partition induced by `rep` coincides with passage
reachability, components and passages add up to `W*H`, and every recorded
passage is a bridge (its removal disconnects its endpoints). -/
structure BInv (W H : Nat) (g : GoalGridF) (ways : WayGridF)
    (rep : GridLocation → GridLocation) (d : GridLocation → Nat) : Prop where
  uf : UFInv W H g rep d
  card : CardOK W H rep d
  waysok : WaysOK W H ways
  counts : ∀ p c, (ways p).count c ≤ 1
  partition : ∀ p q, inRange W H p → inRange W H q →
    (rep p = rep q ↔ Reach ways p q)
  total : compTotal W H rep + passTotal W H ways = W * H
  bridges : ∀ p c, c ∈ ways p →
    ¬ Reach (erasePass ways p c) p (passTarget p c)

/-- The builder state admits certificates for the full invariant. -/
def StateInv (W H : Nat) (s : GoalGridF × WayGridF) : Prop :=
  ∃ rep d, BInv W H s.1 s.2 rep d

/-- The compact location of a vertex of the finite grid graph. -/
def toLoc {W H : Nat} (v : Fin W × Fin H) : GridLocation :=
  ⟨((v.1 : Nat) : Int), ((v.2 : Nat) : Int)⟩

/-- The vertex of the finite grid graph at an in-range compact location. -/
def locToV (W H : Nat) (p : GridLocation) (hp : inRange W H p) :
    Fin W × Fin H :=
  (⟨p.x.toNat, by obtain ⟨a1, a2, a3, a4⟩ := hp; omega⟩,
    ⟨p.y.toNat, by obtain ⟨a1, a2, a3, a4⟩ := hp; omega⟩)

/-- The maze as a simple graph on the `W*H` grid vertices: two vertices are
adjacent when a recorded passage connects their compact locations. -/
def mazeGraph (W H : Nat) (ways : WayGridF) : SimpleGraph (Fin W × Fin H) where
  Adj u v := adjWays ways (toLoc u) (toLoc v)
  symm := by
    intro u v h
    unfold adjWays at h ⊢
    tauto
  loopless := by
    intro v h
    unfold adjWays at h
    rcases h with ⟨-, h⟩ | ⟨-, h⟩ | ⟨-, h⟩ | ⟨-, h⟩ <;>
      · have hx := congrArg GridLocation.x h
        have hy := congrArg GridLocation.y h
        dsimp at hx hy
        omega

/-- The block location `compactToBlock` returns, written as the spec writes
it. -/
theorem compactToBlock_eq (p : GridLocation) :
    compactToBlock p = ⟨2 * p.x + 1, 2 * p.y + 1⟩ := by
  simp only [compactToBlock, GridLocation.mk.injEq]
  omega

/-- C8: for every compact location with non-negative coordinates,
`compactToBlock p = (2·p.x+1, 2·p.y+1)`, it always succeeds (it is a total
function), and `blockToCompact (compactToBlock p) = p`. -/
theorem claim_C8_compactToBlock_roundtrip (p : GridLocation)
    (hx : 0 ≤ p.x) (hy : 0 ≤ p.y) :
    compactToBlock p = ⟨2 * p.x + 1, 2 * p.y + 1⟩ ∧
      blockToCompact (compactToBlock p) = some p := by
  refine ⟨compactToBlock_eq p, ?_⟩
  have hc : (p.x * 2 + 1) % 2 = 1 ∧ (p.y * 2 + 1) % 2 = 1 := by omega
  simp only [compactToBlock, blockToCompact]
  rw [if_pos hc]
  have dx : (p.x * 2 + 1).fdiv 2 = p.x := by
    rw [Int.fdiv_eq_ediv _ (by norm_num)]; omega
  have dy : (p.y * 2 + 1).fdiv 2 = p.y := by
    rw [Int.fdiv_eq_ediv _ (by norm_num)]; omega
  rw [dx, dy]

/-- Witness for C8 at the concrete compact location `(2,3)`. -/
theorem claim_C8_witness :
    (0 : Int) ≤ (⟨2, 3⟩ : GridLocation).x ∧ (0 : Int) ≤ (⟨2, 3⟩ : GridLocation).y ∧
      (compactToBlock ⟨2, 3⟩ = ⟨5, 7⟩ ∧
        blockToCompact (compactToBlock ⟨2, 3⟩) = some ⟨2, 3⟩) :=
  ⟨by decide, by decide,
    claim_C8_compactToBlock_roundtrip ⟨2, 3⟩ (by decide) (by decide)⟩

/-- C9: `blockToCompact` returns a compact location exactly when both block
coordinates are odd, and returns `none` (an ordinary optional result, not
an error) exactly when some coordinate is even. -/
theorem claim_C9_blockToCompact_parity (p : GridLocation) :
    ((∃ q, blockToCompact p = some q) ↔ Odd p.x ∧ Odd p.y) ∧
      (blockToCompact p = none ↔ Even p.x ∨ Even p.y) := by
  have hox : Odd p.x ↔ p.x % 2 = 1 := Int.odd_iff
  have hoy : Odd p.y ↔ p.y % 2 = 1 := Int.odd_iff
  have hex : Even p.x ↔ p.x % 2 = 0 := Int.even_iff
  have hey : Even p.y ↔ p.y % 2 = 0 := Int.even_iff
  unfold blockToCompact
  by_cases h : p.x % 2 = 1 ∧ p.y % 2 = 1
  · rw [if_pos h]
    refine ⟨⟨fun _ => ⟨hox.mpr h.1, hoy.mpr h.2⟩, fun _ => ⟨_, rfl⟩⟩, ?_, ?_⟩
    · intro hc; exact absurd hc (by simp)
    · intro hc; exfalso
      rcases hc with hc | hc
      · rw [hex] at hc; omega
      · rw [hey] at hc; omega
  · rw [if_neg h]
    refine ⟨⟨?_, ?_⟩, ?_, fun _ => rfl⟩
    · rintro ⟨q, hq⟩; exact absurd hq (by simp)
    · rintro ⟨h1, h2⟩; rw [hox] at h1; rw [hoy] at h2; exact absurd ⟨h1, h2⟩ h
    · intro _; rw [hex, hey]; omega

/-- Generic preservation of an invariant along a left fold. -/
theorem foldl_inv {σ α : Type} {f : σ → α → σ} {P : σ → Prop} {Q : α → Prop}
    (hstep : ∀ s a, P s → Q a → P (f s a)) :
    ∀ (L : List α) (s : σ), P s → (∀ a ∈ L, Q a) → P (L.foldl f s) := by
  intro L
  induction L with
  | nil => intro s hs _; exact hs
  | cons a L ih =>
    intro s hs hQ
    exact ih _ (hstep s a hs (hQ a (List.mem_cons_self a L)))
      (fun b hb => hQ b (List.mem_cons_of_mem a hb))

/-- The candidate edge list is the East block followed by the South block. -/
theorem wallsList_eq (W H : Nat) :
    wallsList W H =
      ((List.range W).flatMap fun (i : Nat) =>
        (List.range H).map fun (j : Nat) => ((i : Int), (j : Int), 'E')) ++
      ((List.range W).flatMap fun (i : Nat) =>
        (List.range H).map fun (j : Nat) => ((i : Int), (j : Int), 'S')) := by
  simp [wallsList]

/-- Membership in one direction block of the candidate list. -/
theorem mem_wallsBlock {W H : Nat} {x y : Int} {w w0 : Char} :
    (x, y, w) ∈ ((List.range W).flatMap fun (i : Nat) =>
        (List.range H).map fun (j : Nat) => ((i : Int), (j : Int), w0)) ↔
      w = w0 ∧ 0 ≤ x ∧ x < (W : Int) ∧ 0 ≤ y ∧ y < (H : Int) := by
  constructor
  · intro hmem
    obtain ⟨i, hi, h2⟩ := List.mem_flatMap.mp hmem
    obtain ⟨j, hj, h3⟩ := List.mem_map.mp h2
    rw [List.mem_range] at hi hj
    injection h3 with h4 h5
    injection h5 with h5 h6
    subst h4; subst h5; subst h6
    exact ⟨rfl, by omega, by omega, by omega, by omega⟩
  · rintro ⟨rfl, hx0, hxW, hy0, hyH⟩
    refine List.mem_flatMap.mpr ⟨x.toNat, List.mem_range.mpr (by omega), ?_⟩
    refine List.mem_map.mpr ⟨y.toNat, List.mem_range.mpr (by omega), ?_⟩
    rw [Int.toNat_of_nonneg hx0, Int.toNat_of_nonneg hy0]

/-- Membership in the candidate edge list: exactly the in-range cells, once
with each of the two direction characters. -/
theorem mem_wallsList {W H : Nat} {e : Int × Int × Char} :
    e ∈ wallsList W H ↔
      (e.2.2 = 'E' ∨ e.2.2 = 'S') ∧ 0 ≤ e.1 ∧ e.1 < (W : Int) ∧
        0 ≤ e.2.1 ∧ e.2.1 < (H : Int) := by
  obtain ⟨x, y, w⟩ := e
  rw [wallsList_eq, List.mem_append, mem_wallsBlock, mem_wallsBlock]
  constructor
  · rintro (⟨h, hs⟩ | ⟨h, hs⟩)
    · exact ⟨Or.inl h, hs⟩
    · exact ⟨Or.inr h, hs⟩
  · rintro ⟨h | h, hs⟩
    · exact Or.inl ⟨h, hs⟩
    · exact Or.inr ⟨h, hs⟩

/-- The passage grid after `tryEdge`: unchanged, or with `w` appended at `A`. -/
theorem tryEdge_ways (W H : Nat) (s : GoalGridF × WayGridF)
    (A B : GridLocation) (w : Char) :
    (tryEdge W H s A B w).2 = s.2 ∨
      (tryEdge W H s A B w).2 = appendWay s.2 A w := by
  simp only [tryEdge]
  split
  · exact Or.inl rfl
  · exact Or.inr rfl

/-- The passage grid after one builder iteration: unchanged, or one guarded
append at the edge's source cell. -/
theorem mazeStep_ways_cases (W H : Nat) (s : GoalGridF × WayGridF)
    (e : Int × Int × Char) :
    (mazeStep W H s e).2 = s.2 ∨
      (e.2.2 = 'E' ∧ e.1 < (W : Int) - 1 ∧
        (mazeStep W H s e).2 = appendWay s.2 ⟨e.1, e.2.1⟩ 'E') ∨
      (e.2.2 = 'S' ∧ e.2.1 < (H : Int) - 1 ∧
        (mazeStep W H s e).2 = appendWay s.2 ⟨e.1, e.2.1⟩ 'S') := by
  simp only [mazeStep]
  by_cases hE : e.2.2 = 'E' ∧ e.1 < (W : Int) - 1
  · by_cases hS : e.2.2 = 'S' ∧ e.2.1 < (H : Int) - 1
    · exact absurd (hE.1.symm.trans hS.1) (by decide)
    · rw [if_pos hE, if_neg hS]
      rcases tryEdge_ways W H s ⟨e.1, e.2.1⟩ ⟨e.1 + 1, e.2.1⟩ e.2.2 with h | h
      · exact Or.inl h
      · right; left
        refine ⟨hE.1, hE.2, ?_⟩
        rw [← hE.1]; exact h
  · by_cases hS : e.2.2 = 'S' ∧ e.2.1 < (H : Int) - 1
    · rw [if_neg hE, if_pos hS]
      rcases tryEdge_ways W H s ⟨e.1, e.2.1⟩ ⟨e.1, e.2.1 + 1⟩ e.2.2 with h | h
      · exact Or.inl h
      · right; right
        refine ⟨hS.1, hS.2, ?_⟩
        rw [← hS.1]; exact h
    · rw [if_neg hE, if_neg hS]
      exact Or.inl rfl

theorem waysOK_init (W H : Nat) : WaysOK W H initWayGrid := by
  intro p c hc
  simp [initWayGrid] at hc

/-- Appending a guarded direction character preserves `WaysOK`. -/
theorem waysOK_append (W H : Nat) (ways : WayGridF) (h : WaysOK W H ways)
    (p : GridLocation) (w : Char) (hp : inRange W H p)
    (hw : (w = 'E' ∧ p.x < (W : Int) - 1) ∨ (w = 'S' ∧ p.y < (H : Int) - 1)) :
    WaysOK W H (appendWay ways p w) := by
  intro q c hc
  unfold appendWay at hc
  by_cases hq : q = p
  · subst hq
    rw [Function.update_same] at hc
    rcases List.mem_append.mp hc with hc | hc
    · exact h q c hc
    · have hcw : c = w := by simpa using hc
      subst hcw
      exact ⟨hp, hw⟩
  · rw [Function.update_noteq hq] at hc
    exact h q c hc

theorem waysOK_mazeStep (W H : Nat) (s : GoalGridF × WayGridF)
    (e : Int × Int × Char) (he : e ∈ wallsList W H) (h : WaysOK W H s.2) :
    WaysOK W H (mazeStep W H s e).2 := by
  obtain ⟨_, hx0, hxW, hy0, hyH⟩ := mem_wallsList.mp he
  rcases mazeStep_ways_cases W H s e with hc | ⟨_, hlt, hc⟩ | ⟨_, hlt, hc⟩
  · rw [hc]; exact h
  · rw [hc]
    exact waysOK_append W H s.2 h ⟨e.1, e.2.1⟩ 'E' ⟨hx0, hxW, hy0, hyH⟩
      (Or.inl ⟨rfl, hlt⟩)
  · rw [hc]
    exact waysOK_append W H s.2 h ⟨e.1, e.2.1⟩ 'S' ⟨hx0, hxW, hy0, hyH⟩
      (Or.inr ⟨rfl, hlt⟩)

/-- Every built passage grid satisfies `WaysOK`. -/
theorem waysOK_built (W H : Nat) (ways : WayGridF) (h : IsBuilt W H ways) :
    WaysOK W H ways := by
  obtain ⟨L, hperm, rfl⟩ := h
  unfold buildWays buildMaze
  refine foldl_inv (P := fun s : GoalGridF × WayGridF => WaysOK W H s.2)
    (Q := fun e => e ∈ wallsList W H) ?_ L _ (waysOK_init W H) ?_
  · intro s a hs ha
    exact waysOK_mazeStep W H s a ha hs
  · intro a ha
    exact hperm.mem_iff.mp ha

/-- A `WaysOK` passage grid stores nothing at out-of-range cells. -/
theorem ways_out_empty (W H : Nat) (ways : WayGridF) (h : WaysOK W H ways)
    (p : GridLocation) (hp : ¬ inRange W H p) : ways p = [] :=
  List.eq_nil_iff_forall_not_mem.mpr fun c hc => hp (h p c hc).1

/-- Membership in `waysFrom`: the cell's own list, plus the derived West
and North directions.  Holds for any passage grid. -/
theorem mem_waysFrom_iff (W H : Nat) (ways : WayGridF) (p : GridLocation)
    (c : Char) :
    c ∈ waysFrom W H ways p ↔ inRange W H p ∧
      (c ∈ ways p ∨ (c = 'W' ∧ 0 < p.x ∧ 'E' ∈ ways ⟨p.x - 1, p.y⟩) ∨
        (c = 'N' ∧ 0 < p.y ∧ 'S' ∈ ways ⟨p.x, p.y - 1⟩)) := by
  simp only [waysFrom]
  by_cases hin : 0 ≤ p.x ∧ p.x < (W : Int) ∧ 0 ≤ p.y ∧ p.y < (H : Int)
  · rw [if_pos hin]
    have hin' : inRange W H p := hin
    by_cases h1 : 0 < p.x ∧ 'E' ∈ ways ⟨p.x - 1, p.y⟩ <;>
      by_cases h2 : 0 < p.y ∧ 'S' ∈ ways ⟨p.x, p.y - 1⟩
    · rw [if_pos h1, if_pos h2, List.mem_append, List.mem_append,
        List.mem_singleton, List.mem_singleton]
      tauto
    · rw [if_pos h1, if_neg h2, List.mem_append, List.mem_singleton]
      tauto
    · rw [if_neg h1, if_pos h2, List.mem_append, List.mem_singleton]
      tauto
    · rw [if_neg h1, if_neg h2]
      tauto
  · rw [if_neg hin]
    have hin' : ¬ inRange W H p := hin
    simp only [List.not_mem_nil, false_iff]
    tauto

/-- `'E' ∈ waysFrom p` means: `p` in range and `'E'` stored at `p`. -/
theorem mem_waysFrom_E (W H : Nat) (ways : WayGridF) (p : GridLocation) :
    'E' ∈ waysFrom W H ways p ↔ inRange W H p ∧ 'E' ∈ ways p := by
  rw [mem_waysFrom_iff]
  constructor
  · rintro ⟨hin, h | ⟨hc, -⟩ | ⟨hc, -⟩⟩
    · exact ⟨hin, h⟩
    · exact absurd hc (by decide)
    · exact absurd hc (by decide)
  · rintro ⟨hin, h⟩
    exact ⟨hin, Or.inl h⟩

/-- `'S' ∈ waysFrom p` means: `p` in range and `'S'` stored at `p`. -/
theorem mem_waysFrom_S (W H : Nat) (ways : WayGridF) (p : GridLocation) :
    'S' ∈ waysFrom W H ways p ↔ inRange W H p ∧ 'S' ∈ ways p := by
  rw [mem_waysFrom_iff]
  constructor
  · rintro ⟨hin, h | ⟨hc, -⟩ | ⟨hc, -⟩⟩
    · exact ⟨hin, h⟩
    · exact absurd hc (by decide)
    · exact absurd hc (by decide)
  · rintro ⟨hin, h⟩
    exact ⟨hin, Or.inl h⟩

/-- On a `WaysOK` grid, `'W' ∈ waysFrom q` means the West neighbour stores
`'E'` (the stored lists themselves never contain `'W'`). -/
theorem mem_waysFrom_W (W H : Nat) (ways : WayGridF) (q : GridLocation)
    (hOK : WaysOK W H ways) :
    'W' ∈ waysFrom W H ways q ↔
      inRange W H q ∧ 0 < q.x ∧ 'E' ∈ ways ⟨q.x - 1, q.y⟩ := by
  rw [mem_waysFrom_iff]
  constructor
  · rintro ⟨hin, h | ⟨-, hx, hE⟩ | ⟨hc, -⟩⟩
    · rcases (hOK q 'W' h).2 with ⟨hc, -⟩ | ⟨hc, -⟩ <;> exact absurd hc (by decide)
    · exact ⟨hin, hx, hE⟩
    · exact absurd hc (by decide)
  · rintro ⟨hin, hx, hE⟩
    exact ⟨hin, Or.inr (Or.inl ⟨rfl, hx, hE⟩)⟩

/-- On a `WaysOK` grid, `'N' ∈ waysFrom q` means the North neighbour stores
`'S'`. -/
theorem mem_waysFrom_N (W H : Nat) (ways : WayGridF) (q : GridLocation)
    (hOK : WaysOK W H ways) :
    'N' ∈ waysFrom W H ways q ↔
      inRange W H q ∧ 0 < q.y ∧ 'S' ∈ ways ⟨q.x, q.y - 1⟩ := by
  rw [mem_waysFrom_iff]
  constructor
  · rintro ⟨hin, h | ⟨hc, -⟩ | ⟨-, hy, hS⟩⟩
    · rcases (hOK q 'N' h).2 with ⟨hc, -⟩ | ⟨hc, -⟩ <;> exact absurd hc (by decide)
    · exact absurd hc (by decide)
    · exact ⟨hin, hy, hS⟩
  · rintro ⟨hin, hy, hS⟩
    exact ⟨hin, Or.inr (Or.inr ⟨rfl, hy, hS⟩)⟩

/-- C4: for every built maze, `waysFrom` is exactly the sequence the spec
describes: empty out of range, otherwise the cell's own stored passages in
stored order, then the derived `'W'`, then the derived `'N'`. -/
theorem claim_C4_waysFrom_shape (W H : Nat) (ways : WayGridF)
    (_h : IsBuilt W H ways) (p : GridLocation) :
    waysFrom W H ways p = waysFromSpec W H ways p := by
  obtain ⟨px, py⟩ := p
  by_cases hin : inRange W H ⟨px, py⟩
  · have hin2 : 0 ≤ px ∧ px < (W : Int) ∧ 0 ≤ py ∧ py < (H : Int) := hin
    have cE : storedE W H ways ⟨px - 1, py⟩ ↔
        (0 < px ∧ 'E' ∈ ways ⟨px - 1, py⟩) := by
      unfold storedE inRange
      dsimp only
      constructor
      · rintro ⟨⟨a1, a2, a3, a4⟩, hm⟩
        exact ⟨by omega, hm⟩
      · rintro ⟨a1, hm⟩
        exact ⟨⟨by omega, by omega, by omega, by omega⟩, hm⟩
    have cS : storedS W H ways ⟨px, py - 1⟩ ↔
        (0 < py ∧ 'S' ∈ ways ⟨px, py - 1⟩) := by
      unfold storedS inRange
      dsimp only
      constructor
      · rintro ⟨⟨a1, a2, a3, a4⟩, hm⟩
        exact ⟨by omega, hm⟩
      · rintro ⟨a1, hm⟩
        exact ⟨⟨by omega, by omega, by omega, by omega⟩, hm⟩
    simp only [waysFrom, waysFromSpec]
    rw [if_pos hin2, if_pos hin]
    by_cases h1 : 0 < px ∧ 'E' ∈ ways ⟨px - 1, py⟩ <;>
      by_cases h2 : 0 < py ∧ 'S' ∈ ways ⟨px, py - 1⟩
    · rw [if_pos h1, if_pos h2, if_pos (cE.mpr h1), if_pos (cS.mpr h2)]
    · rw [if_pos h1, if_neg h2, if_pos (cE.mpr h1),
        if_neg (fun hc => h2 (cS.mp hc))]
      simp
    · rw [if_neg h1, if_pos h2, if_neg (fun hc => h1 (cE.mp hc)),
        if_pos (cS.mpr h2)]
      simp
    · rw [if_neg h1, if_neg h2, if_neg (fun hc => h1 (cE.mp hc)),
        if_neg (fun hc => h2 (cS.mp hc))]
      simp
  · have hin2 : ¬ (0 ≤ px ∧ px < (W : Int) ∧ 0 ≤ py ∧ py < (H : Int)) := hin
    simp only [waysFrom, waysFromSpec]
    rw [if_neg hin2, if_neg hin]

/-- Witness for C4 on the concretely built 1×1 maze at its single cell. -/
theorem claim_C4_witness :
    IsBuilt 1 1 (buildWays 1 1 (wallsList 1 1)) ∧
      waysFrom 1 1 (buildWays 1 1 (wallsList 1 1)) ⟨0, 0⟩ =
        waysFromSpec 1 1 (buildWays 1 1 (wallsList 1 1)) ⟨0, 0⟩ :=
  ⟨⟨wallsList 1 1, List.Perm.refl _, rfl⟩,
    claim_C4_waysFrom_shape 1 1 _ ⟨wallsList 1 1, List.Perm.refl _, rfl⟩ ⟨0, 0⟩⟩

/-- An `'E'` stored at `(x,y)` on a `WaysOK` grid pins down the bounds of
`(x,y)`: in range and strictly left of the last column. -/
theorem waysOK_E (W H : Nat) (ways : WayGridF) (hOK : WaysOK W H ways)
    {x y : Int} (h : 'E' ∈ ways ⟨x, y⟩) :
    0 ≤ x ∧ x < (W : Int) - 1 ∧ 0 ≤ y ∧ y < (H : Int) := by
  obtain ⟨hin, hc⟩ := hOK ⟨x, y⟩ 'E' h
  obtain ⟨a1, a2, a3, a4⟩ := hin
  dsimp only at a1 a2 a3 a4
  rcases hc with ⟨-, hlt⟩ | ⟨hc, -⟩
  · dsimp only at hlt
    exact ⟨a1, hlt, a3, a4⟩
  · exact absurd hc (by decide)

/-- An `'S'` stored at `(x,y)` on a `WaysOK` grid pins down the bounds of
`(x,y)`: in range and strictly above the last row. -/
theorem waysOK_S (W H : Nat) (ways : WayGridF) (hOK : WaysOK W H ways)
    {x y : Int} (h : 'S' ∈ ways ⟨x, y⟩) :
    0 ≤ x ∧ x < (W : Int) ∧ 0 ≤ y ∧ y < (H : Int) - 1 := by
  obtain ⟨hin, hc⟩ := hOK ⟨x, y⟩ 'S' h
  obtain ⟨a1, a2, a3, a4⟩ := hin
  dsimp only at a1 a2 a3 a4
  rcases hc with ⟨hc, -⟩ | ⟨-, hlt⟩
  · exact absurd hc (by decide)
  · dsimp only at hlt
    exact ⟨a1, a2, a3, hlt⟩

/-- C6: for every built maze and every compact location (in range or not),
East from `p` and West from `p+(1,0)` are equivalent, as are South from
`p` and North from `p+(0,1)`. -/
theorem claim_C6_waysFrom_symmetric (W H : Nat) (ways : WayGridF)
    (h : IsBuilt W H ways) (p : GridLocation) :
    ('E' ∈ waysFrom W H ways p ↔ 'W' ∈ waysFrom W H ways ⟨p.x + 1, p.y⟩) ∧
      ('S' ∈ waysFrom W H ways p ↔ 'N' ∈ waysFrom W H ways ⟨p.x, p.y + 1⟩) := by
  have hOK := waysOK_built W H ways h
  obtain ⟨px, py⟩ := p
  have e1 : px + 1 - 1 = px := by omega
  have e2 : py + 1 - 1 = py := by omega
  constructor
  · rw [mem_waysFrom_E, mem_waysFrom_W W H ways _ hOK]
    unfold inRange
    dsimp only
    rw [e1]
    constructor
    · rintro ⟨hin, hE⟩
      obtain ⟨b1, b2, b3, b4⟩ := waysOK_E W H ways hOK hE
      exact ⟨⟨by omega, by omega, by omega, by omega⟩, by omega, hE⟩
    · rintro ⟨hin, hx, hE⟩
      obtain ⟨b1, b2, b3, b4⟩ := waysOK_E W H ways hOK hE
      exact ⟨⟨by omega, by omega, by omega, by omega⟩, hE⟩
  · rw [mem_waysFrom_S, mem_waysFrom_N W H ways _ hOK]
    unfold inRange
    dsimp only
    rw [e2]
    constructor
    · rintro ⟨hin, hS⟩
      obtain ⟨b1, b2, b3, b4⟩ := waysOK_S W H ways hOK hS
      exact ⟨⟨by omega, by omega, by omega, by omega⟩, by omega, hS⟩
    · rintro ⟨hin, hy, hS⟩
      obtain ⟨b1, b2, b3, b4⟩ := waysOK_S W H ways hOK hS
      exact ⟨⟨by omega, by omega, by omega, by omega⟩, hS⟩

/-- Witness for C6 on the concretely built 1×1 maze at its single cell. -/
theorem claim_C6_witness :
    IsBuilt 1 1 (buildWays 1 1 (wallsList 1 1)) ∧
      (('E' ∈ waysFrom 1 1 (buildWays 1 1 (wallsList 1 1)) ⟨0, 0⟩ ↔
          'W' ∈ waysFrom 1 1 (buildWays 1 1 (wallsList 1 1)) ⟨0 + 1, 0⟩) ∧
        ('S' ∈ waysFrom 1 1 (buildWays 1 1 (wallsList 1 1)) ⟨0, 0⟩ ↔
          'N' ∈ waysFrom 1 1 (buildWays 1 1 (wallsList 1 1)) ⟨0, 0 + 1⟩)) :=
  ⟨⟨wallsList 1 1, List.Perm.refl _, rfl⟩,
    claim_C6_waysFrom_symmetric 1 1 _ ⟨wallsList 1 1, List.Perm.refl _, rfl⟩ ⟨0, 0⟩⟩

theorem contains_eq_false_iff (l : List Char) (c : Char) :
    (l.contains c = false) ↔ ¬ c ∈ l := by
  have h : l.contains c = true ↔ c ∈ l := List.elem_iff
  constructor
  · intro hf hc
    exact absurd ((h.mpr hc).symm.trans hf) (by decide)
  · intro hn
    cases hb : l.contains c
    · rfl
    · exact absurd (h.mp hb) hn

theorem pyIndex_nonneg (n : Nat) {i : Int} (h : 0 ≤ i) : pyIndex n i = i :=
  if_neg (by omega)

theorem pyIndex_neg_one (n : Nat) : pyIndex n (-1) = (n : Int) - 1 := by
  unfold pyIndex
  rw [if_pos (by omega)]
  omega

theorem fdiv_two (a : Int) : a.fdiv 2 = a / 2 :=
  Int.fdiv_eq_ediv a (by norm_num)

/-- `hasBlockAt` unfolded to its propositional reading. -/
theorem hasBlockAt_eq_true_iff (W H : Nat) (ways : WayGridF) (p : GridLocation) :
    hasBlockAt W H ways p = true ↔
      (p.x < 0 ∨ p.y < 0 ∨ (W : Int) * 2 + 1 ≤ p.x ∨ (H : Int) * 2 + 1 ≤ p.y ∨
        (p.x % 2 = 0 ∧ p.y % 2 = 0) ∨
        (p.x % 2 = 0 ∧ p.y % 2 = 1 ∧
          ¬ 'E' ∈ wayAt W H ways ((p.x - 1).fdiv 2) (p.y.fdiv 2)) ∨
        (p.x % 2 = 1 ∧ p.y % 2 = 0 ∧
          ¬ 'S' ∈ wayAt W H ways (p.x.fdiv 2) ((p.y - 1).fdiv 2))) := by
  unfold hasBlockAt
  simp only [Bool.or_eq_true, Bool.and_eq_true, decide_eq_true_eq,
    Bool.not_eq_true', contains_eq_false_iff, and_assoc, or_assoc]

/-- The heart of claim C3: on a `WaysOK` grid, `hasBlockAt` agrees with the
spec's four-case description everywhere.  The only divergence candidates
are the West and North borders, where the code's index `-1` wraps to the
last column/row; `WaysOK` guarantees those never store `'E'`/`'S'`, which
makes the wrapped read agree with "no passage stored". -/
theorem hasBlockAt_spec_iff (W H : Nat) (ways : WayGridF)
    (hOK : WaysOK W H ways) (p : GridLocation) :
    hasBlockAt W H ways p = true ↔ hasBlockSpec W H ways p := by
  obtain ⟨px, py⟩ := p
  rw [hasBlockAt_eq_true_iff]
  unfold hasBlockSpec inBlockRange storedE storedS inRange
  dsimp only
  rw [fdiv_two, fdiv_two, fdiv_two, fdiv_two]
  simp only [Int.even_iff, Int.odd_iff]
  by_cases hin : 0 ≤ px ∧ px < (W : Int) * 2 + 1 ∧ 0 ≤ py ∧ py < (H : Int) * 2 + 1
  · obtain ⟨q1, q2, q3, q4⟩ := hin
    have hx2 : px % 2 = 0 ∨ px % 2 = 1 := by omega
    have hy2 : py % 2 = 0 ∨ py % 2 = 1 := by omega
    rcases hx2 with hx | hx <;> rcases hy2 with hy | hy
    · -- even / even
      apply iff_of_true
      · exact Or.inr (Or.inr (Or.inr (Or.inr (Or.inl ⟨hx, hy⟩))))
      · exact Or.inr (Or.inl ⟨hx, hy⟩)
    · -- px even, py odd: the East wall position
      by_cases hx0 : px = 0
      · subst hx0
        have hnoE : ¬ 'E' ∈ wayAt W H ways (((0 : Int) - 1) / 2) (py / 2) := by
          have e : ((0 : Int) - 1) / 2 = -1 := by decide
          rw [e]
          unfold wayAt
          have e1 : pyIndex W (-1) = (W : Int) - 1 := pyIndex_neg_one W
          have e2 : pyIndex H (py / 2) = py / 2 := pyIndex_nonneg H (by omega)
          rw [e1, e2]
          intro hmem
          obtain ⟨b1, b2, b3, b4⟩ := waysOK_E W H ways hOK hmem
          omega
        apply iff_of_true
        · exact Or.inr (Or.inr (Or.inr (Or.inr (Or.inr (Or.inl ⟨hx, hy, hnoE⟩)))))
        · refine Or.inr (Or.inr (Or.inr ⟨hx, hy, ?_⟩))
          rintro ⟨⟨r1, -⟩, -⟩
          omega
      · have hxpos : 2 ≤ px := by omega
        have hId : wayAt W H ways ((px - 1) / 2) (py / 2) =
            ways ⟨(px - 1) / 2, py / 2⟩ := by
          unfold wayAt
          have e1 : pyIndex W ((px - 1) / 2) = (px - 1) / 2 :=
            pyIndex_nonneg W (by omega)
          have e2 : pyIndex H (py / 2) = py / 2 := pyIndex_nonneg H (by omega)
          rw [e1, e2]
        by_cases hE : 'E' ∈ ways ⟨(px - 1) / 2, py / 2⟩
        · apply iff_of_false
          · rw [hId]
            rintro (h | h | h | h | ⟨-, h⟩ | ⟨-, -, h⟩ | ⟨h, -⟩)
            · omega
            · omega
            · omega
            · omega
            · omega
            · exact h hE
            · omega
          · rintro (h | ⟨-, h⟩ | ⟨h, -⟩ | ⟨-, -, h⟩)
            · exact h ⟨q1, q2, q3, q4⟩
            · omega
            · omega
            · exact h ⟨⟨by omega, by omega, by omega, by omega⟩, hE⟩
        · apply iff_of_true
          · refine Or.inr (Or.inr (Or.inr (Or.inr (Or.inr (Or.inl ⟨hx, hy, ?_⟩)))))
            rw [hId]
            exact hE
          · exact Or.inr (Or.inr (Or.inr ⟨hx, hy, fun hse => hE hse.2⟩))
    · -- px odd, py even: the South wall position
      by_cases hy0 : py = 0
      · subst hy0
        have hnoS : ¬ 'S' ∈ wayAt W H ways (px / 2) (((0 : Int) - 1) / 2) := by
          have e : ((0 : Int) - 1) / 2 = -1 := by decide
          rw [e]
          unfold wayAt
          have e1 : pyIndex W (px / 2) = px / 2 := pyIndex_nonneg W (by omega)
          have e2 : pyIndex H (-1) = (H : Int) - 1 := pyIndex_neg_one H
          rw [e1, e2]
          intro hmem
          obtain ⟨b1, b2, b3, b4⟩ := waysOK_S W H ways hOK hmem
          omega
        apply iff_of_true
        · exact Or.inr (Or.inr (Or.inr (Or.inr (Or.inr (Or.inr ⟨hx, hy, hnoS⟩)))))
        · refine Or.inr (Or.inr (Or.inl ⟨hx, hy, ?_⟩))
          rintro ⟨⟨-, -, r3, -⟩, -⟩
          omega
      · have hypos : 2 ≤ py := by omega
        have hId : wayAt W H ways (px / 2) ((py - 1) / 2) =
            ways ⟨px / 2, (py - 1) / 2⟩ := by
          unfold wayAt
          have e1 : pyIndex W (px / 2) = px / 2 := pyIndex_nonneg W (by omega)
          have e2 : pyIndex H ((py - 1) / 2) = (py - 1) / 2 :=
            pyIndex_nonneg H (by omega)
          rw [e1, e2]
        by_cases hS : 'S' ∈ ways ⟨px / 2, (py - 1) / 2⟩
        · apply iff_of_false
          · rw [hId]
            rintro (h | h | h | h | ⟨h, -⟩ | ⟨h, -⟩ | ⟨-, -, h⟩)
            · omega
            · omega
            · omega
            · omega
            · omega
            · omega
            · exact h hS
          · rintro (h | ⟨h, -⟩ | ⟨-, -, h⟩ | ⟨-, h, -⟩)
            · exact h ⟨q1, q2, q3, q4⟩
            · omega
            · exact h ⟨⟨by omega, by omega, by omega, by omega⟩, hS⟩
            · omega
        · apply iff_of_true
          · refine Or.inr (Or.inr (Or.inr (Or.inr (Or.inr (Or.inr ⟨hx, hy, ?_⟩)))))
            rw [hId]
            exact hS
          · exact Or.inr (Or.inr (Or.inl ⟨hx, hy, fun hse => hS hse.2⟩))
    · -- odd / odd: never a block, and no spec case applies
      apply iff_of_false
      · rintro (h | h | h | h | ⟨h, -⟩ | ⟨h, -⟩ | ⟨-, h, -⟩)
        · omega
        · omega
        · omega
        · omega
        · omega
        · omega
        · omega
      · rintro (h | ⟨h, -⟩ | ⟨-, h, -⟩ | ⟨h, -⟩)
        · exact h ⟨q1, q2, q3, q4⟩
        · omega
        · omega
        · omega
  · apply iff_of_true
    · have hd : px < 0 ∨ py < 0 ∨ (W : Int) * 2 + 1 ≤ px ∨ (H : Int) * 2 + 1 ≤ py := by
        omega
      tauto
    · exact Or.inl hin

/-- C3: for every built maze, `hasBlockAt` agrees with the spec's four-case
description at every integer block location; in-range odd/odd positions
are never blocks; and the block image of every valid compact cell is never
a block. -/
theorem claim_C3_hasBlockAt_cases (W H : Nat) (ways : WayGridF)
    (h : IsBuilt W H ways) :
    (∀ p, hasBlockAt W H ways p = true ↔ hasBlockSpec W H ways p) ∧
      (∀ p, inBlockRange W H p → Odd p.x → Odd p.y →
        hasBlockAt W H ways p = false) ∧
      (∀ q, inRange W H q → hasBlockAt W H ways (compactToBlock q) = false) := by
  have hOK := waysOK_built W H ways h
  have part2 : ∀ p, inBlockRange W H p → Odd p.x → Odd p.y →
      hasBlockAt W H ways p = false := by
    intro p hin h1 h2
    rw [Bool.eq_false_iff, Ne, hasBlockAt_spec_iff W H ways hOK p]
    rw [Int.odd_iff] at h1 h2
    rintro (hs | ⟨hs, -⟩ | ⟨-, hs, -⟩ | ⟨hs, -⟩)
    · exact hs hin
    · rw [Int.even_iff] at hs
      omega
    · rw [Int.even_iff] at hs
      omega
    · rw [Int.even_iff] at hs
      omega
  refine ⟨fun p => hasBlockAt_spec_iff W H ways hOK p, part2, ?_⟩
  intro q hq
  have hq' : 0 ≤ q.x ∧ q.x < (W : Int) ∧ 0 ≤ q.y ∧ q.y < (H : Int) := hq
  obtain ⟨a1, a2, a3, a4⟩ := hq'
  apply part2
  · unfold inBlockRange compactToBlock
    dsimp only
    exact ⟨by omega, by omega, by omega, by omega⟩
  · unfold compactToBlock
    dsimp only
    rw [Int.odd_iff]
    omega
  · unfold compactToBlock
    dsimp only
    rw [Int.odd_iff]
    omega

/-- Witness for C3 on the concretely built 1×1 maze at block `(1,1)`. -/
theorem claim_C3_witness :
    IsBuilt 1 1 (buildWays 1 1 (wallsList 1 1)) ∧
      (hasBlockAt 1 1 (buildWays 1 1 (wallsList 1 1)) ⟨1, 1⟩ = true ↔
        hasBlockSpec 1 1 (buildWays 1 1 (wallsList 1 1)) ⟨1, 1⟩) :=
  ⟨⟨wallsList 1 1, List.Perm.refl _, rfl⟩,
    (claim_C3_hasBlockAt_cases 1 1 _ ⟨wallsList 1 1, List.Perm.refl _, rfl⟩).1 ⟨1, 1⟩⟩

/-- C7: for every built maze with positive dimensions, every in-range block
location on the outer border is a block.  At the West and North borders
this rests on the index `-1` wrapping to the last compact column/row,
which a built maze never stores `'E'`/`'S'` in. -/
theorem claim_C7_border_is_wall (W H : Nat) (ways : WayGridF)
    (h : IsBuilt W H ways) (_hW : 0 < W) (_hH : 0 < H) (p : GridLocation)
    (hin : inBlockRange W H p)
    (hb : p.x = 0 ∨ p.y = 0 ∨ p.x = (W : Int) * 2 ∨ p.y = (H : Int) * 2) :
    hasBlockAt W H ways p = true := by
  have hOK := waysOK_built W H ways h
  obtain ⟨px, py⟩ := p
  rw [hasBlockAt_eq_true_iff]
  dsimp only
  dsimp only at hb
  have hin' : 0 ≤ px ∧ px < (W : Int) * 2 + 1 ∧ 0 ≤ py ∧ py < (H : Int) * 2 + 1 := hin
  obtain ⟨q1, q2, q3, q4⟩ := hin'
  have hx2 : px % 2 = 0 ∨ px % 2 = 1 := by omega
  have hy2 : py % 2 = 0 ∨ py % 2 = 1 := by omega
  rcases hx2 with hx | hx <;> rcases hy2 with hy | hy
  · exact Or.inr (Or.inr (Or.inr (Or.inr (Or.inl ⟨hx, hy⟩))))
  · -- px even, py odd: px must be 0 or 2W; the East check fails there
    have hpx : px = 0 ∨ px = (W : Int) * 2 := by
      rcases hb with hc | hc | hc | hc
      · exact Or.inl hc
      · omega
      · exact Or.inr hc
      · omega
    refine Or.inr (Or.inr (Or.inr (Or.inr (Or.inr (Or.inl ⟨hx, hy, ?_⟩)))))
    rw [fdiv_two, fdiv_two]
    intro hmem
    unfold wayAt at hmem
    rcases hpx with h0 | h2W
    · subst h0
      have e : ((0 : Int) - 1) / 2 = -1 := by decide
      rw [e] at hmem
      have e1 : pyIndex W (-1) = (W : Int) - 1 := pyIndex_neg_one W
      have e2 : pyIndex H (py / 2) = py / 2 := pyIndex_nonneg H (by omega)
      rw [e1, e2] at hmem
      obtain ⟨b1, b2, b3, b4⟩ := waysOK_E W H ways hOK hmem
      omega
    · subst h2W
      have e : ((W : Int) * 2 - 1) / 2 = (W : Int) - 1 := by omega
      rw [e] at hmem
      have e1 : pyIndex W ((W : Int) - 1) = (W : Int) - 1 :=
        pyIndex_nonneg W (by omega)
      have e2 : pyIndex H (py / 2) = py / 2 := pyIndex_nonneg H (by omega)
      rw [e1, e2] at hmem
      obtain ⟨b1, b2, b3, b4⟩ := waysOK_E W H ways hOK hmem
      omega
  · -- px odd, py even: py must be 0 or 2H; the South check fails there
    have hpy : py = 0 ∨ py = (H : Int) * 2 := by
      rcases hb with hc | hc | hc | hc
      · omega
      · exact Or.inl hc
      · omega
      · exact Or.inr hc
    refine Or.inr (Or.inr (Or.inr (Or.inr (Or.inr (Or.inr ⟨hx, hy, ?_⟩)))))
    rw [fdiv_two, fdiv_two]
    intro hmem
    unfold wayAt at hmem
    rcases hpy with h0 | h2H
    · subst h0
      have e : ((0 : Int) - 1) / 2 = -1 := by decide
      rw [e] at hmem
      have e1 : pyIndex W (px / 2) = px / 2 := pyIndex_nonneg W (by omega)
      have e2 : pyIndex H (-1) = (H : Int) - 1 := pyIndex_neg_one H
      rw [e1, e2] at hmem
      obtain ⟨b1, b2, b3, b4⟩ := waysOK_S W H ways hOK hmem
      omega
    · subst h2H
      have e : ((H : Int) * 2 - 1) / 2 = (H : Int) - 1 := by omega
      rw [e] at hmem
      have e1 : pyIndex W (px / 2) = px / 2 := pyIndex_nonneg W (by omega)
      have e2 : pyIndex H ((H : Int) - 1) = (H : Int) - 1 :=
        pyIndex_nonneg H (by omega)
      rw [e1, e2] at hmem
      obtain ⟨b1, b2, b3, b4⟩ := waysOK_S W H ways hOK hmem
      omega
  · -- odd/odd cannot lie on a border (border coordinates are even)
    exfalso
    rcases hb with hc | hc | hc | hc <;> omega

/-- Witness for C7 on the concretely built 1×1 maze at the corner `(0,0)`. -/
theorem claim_C7_witness :
    IsBuilt 1 1 (buildWays 1 1 (wallsList 1 1)) ∧
      hasBlockAt 1 1 (buildWays 1 1 (wallsList 1 1)) ⟨0, 0⟩ = true :=
  ⟨⟨wallsList 1 1, List.Perm.refl _, rfl⟩,
    claim_C7_border_is_wall 1 1 _ ⟨wallsList 1 1, List.Perm.refl _, rfl⟩
      (by decide) (by decide) ⟨0, 0⟩ (by decide) (Or.inl rfl)⟩

theorem intercalate_go_eq (s : String) :
    ∀ (l : List String) (acc : String),
      String.intercalate.go acc s l = l.foldl (fun a x => a ++ s ++ x) acc := by
  intro l
  induction l with
  | nil => intro acc; rfl
  | cons a as ih =>
    intro acc
    show String.intercalate.go (acc ++ s ++ a) s as = _
    rw [List.foldl_cons]
    exact ih _

/-- `drawBlocks` is the newline-intercalation of its rows, with no trailing
newline. -/
theorem drawBlocks_eq (W H : Nat) (ways : WayGridF) (b sp : Char) :
    drawBlocks W H ways b sp =
      String.intercalate "\n"
        ((List.range (H * 2 + 1)).map fun (y : Nat) => drawRow W H ways b sp (y : Int)) := by
  have hr : List.range (H * 2 + 1) = 0 :: List.range' 1 (H * 2) := by
    rw [List.range_eq_range']
    rfl
  have h2 : ∀ (a : String) (as : List String),
      String.intercalate "\n" (a :: as) = String.intercalate.go a "\n" as :=
    fun a as => rfl
  rw [hr, List.map_cons, h2, intercalate_go_eq, List.foldl_map]
  unfold drawBlocks
  congr 1

/-- C10: `drawBlocks` returns exactly `blocksHeight` newline-separated rows
with no trailing newline, each of exactly `blocksWidth` characters, the
character at `(x,y)` being the block character exactly where `hasBlockAt`
holds (that is the definition of `specRows`). -/
theorem claim_C10_drawBlocks_grid (W H : Nat) (ways : WayGridF)
    (block space : Char) :
    drawBlocks W H ways block space =
        String.intercalate "\n" (specRows W H ways block space) ∧
      (specRows W H ways block space).length = H * 2 + 1 ∧
      (specRows W H ways block space).map String.length =
        List.replicate (H * 2 + 1) (W * 2 + 1) := by
  refine ⟨?_, ?_, ?_⟩
  · rw [drawBlocks_eq]
    rfl
  · simp [specRows]
  · unfold specRows
    rw [List.map_map]
    have hc : (String.length ∘ fun (y : Nat) =>
        String.mk ((List.range (W * 2 + 1)).map fun (x : Nat) =>
          if hasBlockAt W H ways ⟨(x : Int), (y : Int)⟩ then block else space)) =
        fun _ => W * 2 + 1 := by
      funext y
      simp [String.length_mk]
    rw [hc]
    rw [show (fun (_ : Nat) => W * 2 + 1) = Function.const Nat (W * 2 + 1) from rfl,
      List.map_const, List.length_range]

theorem mem_inRangeFinset {W H : Nat} {p : GridLocation} :
    p ∈ inRangeFinset W H ↔ inRange W H p := by
  obtain ⟨px, py⟩ := p
  unfold inRangeFinset inRange
  dsimp only
  rw [Finset.mem_image]
  constructor
  · rintro ⟨⟨i, j⟩, hij, hEq⟩
    rw [Finset.mem_product, Finset.mem_range, Finset.mem_range] at hij
    obtain ⟨hi, hj⟩ := hij
    rw [GridLocation.mk.injEq] at hEq
    obtain ⟨h1, h2⟩ := hEq
    subst h1
    subst h2
    exact ⟨by omega, by omega, by omega, by omega⟩
  · rintro ⟨h1, h2, h3, h4⟩
    refine ⟨(px.toNat, py.toNat), ?_, ?_⟩
    · rw [Finset.mem_product, Finset.mem_range, Finset.mem_range]
      exact ⟨by omega, by omega⟩
    · rw [GridLocation.mk.injEq]
      exact ⟨by omega, by omega⟩

theorem card_inRangeFinset (W H : Nat) : (inRangeFinset W H).card = W * H := by
  have hinj : Function.Injective
      (fun ij : Nat × Nat => (⟨(ij.1 : Int), (ij.2 : Int)⟩ : GridLocation)) := by
    intro a b hab
    obtain ⟨a1, a2⟩ := a
    obtain ⟨b1, b2⟩ := b
    simp only [GridLocation.mk.injEq] at hab
    obtain ⟨h1, h2⟩ := hab
    rw [Prod.mk.injEq]
    exact ⟨by exact_mod_cast h1, by exact_mod_cast h2⟩
  unfold inRangeFinset
  rw [Finset.card_image_of_injective _ hinj, Finset.card_product,
    Finset.card_range, Finset.card_range]

theorem compCard_le (W H : Nat) (rep : GridLocation → GridLocation)
    (r : GridLocation) : compCard W H rep r ≤ W * H :=
  le_trans (Finset.card_filter_le _ _) (le_of_eq (card_inRangeFinset W H))

/-- A `goal` lookup with enough fuel: it returns `p`'s representative and a
compressed grid satisfying the same invariant with the same certificates,
and the representative's measure does not exceed `p`'s. -/
theorem goalAux_spec (W H : Nat) :
    ∀ (k : Nat) (g : GoalGridF) (rep : GridLocation → GridLocation)
      (d : GridLocation → Nat) (p : GridLocation),
      UFInv W H g rep d → inRange W H p → d p < k →
      ∃ g2, goalAux k g p = some (rep p, g2) ∧ UFInv W H g2 rep d ∧
        d (rep p) ≤ d p := by
  intro k
  induction k with
  | zero => intro g rep d p _ _ h; omega
  | succ k ih =>
    intro g rep d p huf hp hd
    cases hcell : g p with
    | Root l =>
      obtain ⟨hl, hrep⟩ := huf.root p l hp hcell
      subst hl
      refine ⟨g, ?_, huf, by rw [hrep]⟩
      simp only [goalAux, hcell]
      rw [hrep]
    | CanAccess q =>
      obtain ⟨hqin, hqrep, hqd⟩ := huf.point p q hp hcell
      obtain ⟨g2, hcomp, huf2, hdq⟩ := ih g rep d q huf hqin (by omega)
      refine ⟨Function.update g2 p (Cell.CanAccess (rep p)), ?_, ?_, ?_⟩
      · simp only [goalAux, hcell, hcomp]
        rw [hqrep]
      · constructor
        · intro a l ha hcell2
          by_cases hap : a = p
          · subst hap
            rw [Function.update_same] at hcell2
            exact absurd hcell2 (by simp)
          · rw [Function.update_noteq hap] at hcell2
            exact huf2.root a l ha hcell2
        · intro a b ha hcell2
          by_cases hap : a = p
          · subst hap
            rw [Function.update_same] at hcell2
            injection hcell2 with hb
            subst hb
            refine ⟨huf.rep_inR a ha, huf.rep_idem a ha, ?_⟩
            rw [← hqrep]
            omega
          · rw [Function.update_noteq hap] at hcell2
            exact huf2.point a b ha hcell2
        · intro a ha
          by_cases hap : a = p
          · subst hap
            exact absurd hp ha
          · rw [Function.update_noteq hap]
            exact huf2.out a ha
        · exact huf2.rep_inR
        · exact huf2.rep_idem
      · rw [← hqrep]
        omega

/-- The builder's fixed-fuel `goal` lookup on an invariant state. -/
theorem goalT_spec (W H : Nat) (g : GoalGridF)
    (rep : GridLocation → GridLocation) (d : GridLocation → Nat)
    (p : GridLocation) (huf : UFInv W H g rep d) (hcard : CardOK W H rep d)
    (hp : inRange W H p) :
    ∃ g2, goalT W H g p = (rep p, g2) ∧ UFInv W H g2 rep d ∧
      d (rep p) ≤ d p := by
  have hlt : d p < W * H + 1 := by
    have h1 := hcard p hp
    have h2 := compCard_le W H rep (rep p)
    omega
  obtain ⟨g2, hgoal, huf2, hd⟩ := goalAux_spec W H (W * H + 1) g rep d p huf hp hlt
  refine ⟨g2, ?_, huf2, hd⟩
  unfold goalT
  rw [hgoal]

/-- Merging the `r1`-component into the `r2`-component adds the two
component sizes. -/
theorem compCard_merge (W H : Nat) (rep : GridLocation → GridLocation)
    (r1 r2 : GridLocation) (hne : r1 ≠ r2) :
    compCard W H (fun x => if rep x = r1 then r2 else rep x) r2 =
      compCard W H rep r1 + compCard W H rep r2 := by
  unfold compCard
  have hsplit : (inRangeFinset W H).filter
        (fun q => (if rep q = r1 then r2 else rep q) = r2) =
      ((inRangeFinset W H).filter fun q => rep q = r1) ∪
        ((inRangeFinset W H).filter fun q => rep q = r2) := by
    rw [← Finset.filter_or]
    apply Finset.filter_congr
    intro q _
    by_cases h : rep q = r1
    · simp [h, hne]
    · simp [h]
  rw [hsplit, Finset.card_union_of_disjoint]
  rw [Finset.disjoint_left]
  intro a ha hb
  rw [Finset.mem_filter] at ha hb
  rw [ha.2] at hb
  exact hne hb.2

/-- Components other than the two merged ones are unchanged. -/
theorem compCard_untouched (W H : Nat) (rep : GridLocation → GridLocation)
    (r1 r2 r : GridLocation) (h1 : r ≠ r1) (h2 : r ≠ r2) :
    compCard W H (fun x => if rep x = r1 then r2 else rep x) r =
      compCard W H rep r := by
  unfold compCard
  congr 1
  apply Finset.filter_congr
  intro q _
  by_cases h : rep q = r1
  · simp only [h, if_pos]
    constructor
    · intro hc
      exact absurd hc.symm h2
    · intro hc
      exact absurd hc.symm h1
  · simp [h]

/-- `setGoal` on two cells with distinct representatives: the union-find
invariant survives with the representative map redirected from `p1`'s root
to `p2`'s, and with the measure of the absorbed component shifted by the
size of `p2`'s component. -/
theorem setGoal_spec (W H : Nat) (g : GoalGridF)
    (rep : GridLocation → GridLocation) (d : GridLocation → Nat)
    (p1 p2 : GridLocation) (huf : UFInv W H g rep d) (hcard : CardOK W H rep d)
    (hp1 : inRange W H p1) (hp2 : inRange W H p2) (hne : rep p1 ≠ rep p2) :
    UFInv W H (setGoal W H g p1 p2)
        (fun x => if rep x = rep p1 then rep p2 else rep x)
        (fun x => if rep x = rep p1 then d x + compCard W H rep (rep p2)
          else d x) ∧
      CardOK W H (fun x => if rep x = rep p1 then rep p2 else rep x)
        (fun x => if rep x = rep p1 then d x + compCard W H rep (rep p2)
          else d x) := by
  obtain ⟨g2, hgoal, huf2, hdrep⟩ := goalT_spec W H g rep d p1 huf hcard hp1
  have hset : setGoal W H g p1 p2 =
      Function.update g2 (rep p1) (Cell.CanAccess p2) := by
    simp only [setGoal]
    rw [hgoal]
  rw [hset]
  have hr1in : inRange W H (rep p1) := huf.rep_inR p1 hp1
  have hrr1 : rep (rep p1) = rep p1 := huf.rep_idem p1 hp1
  have hrr2 : rep (rep p2) = rep p2 := huf.rep_idem p2 hp2
  constructor
  · constructor
    · intro a l ha hcell
      dsimp only
      by_cases hak : a = rep p1
      · subst hak
        rw [Function.update_same] at hcell
        exact absurd hcell (by simp)
      · rw [Function.update_noteq hak] at hcell
        obtain ⟨hl, hrep⟩ := huf2.root a l ha hcell
        refine ⟨hl, ?_⟩
        rw [if_neg ?_]
        · exact hrep
        · intro hc
          rw [hrep] at hc
          exact hak hc
    · intro a b ha hcell
      dsimp only
      by_cases hak : a = rep p1
      · subst hak
        rw [Function.update_same] at hcell
        injection hcell with hb
        subst hb
        refine ⟨hp2, ?_, ?_⟩
        · rw [if_neg (fun hc => hne hc.symm), if_pos hrr1]
        · rw [if_neg (fun hc => hne hc.symm), if_pos hrr1]
          have h1 := hcard p2 hp2
          omega
      · rw [Function.update_noteq hak] at hcell
        obtain ⟨hbin, hbrep, hbd⟩ := huf2.point a b ha hcell
        refine ⟨hbin, ?_, ?_⟩
        · rw [hbrep]
        · rw [hbrep]
          by_cases hc : rep a = rep p1
          · rw [if_pos hc, if_pos hc]
            omega
          · rw [if_neg hc, if_neg hc]
            exact hbd
    · intro a ha
      by_cases hak : a = rep p1
      · subst hak
        exact absurd hr1in ha
      · rw [Function.update_noteq hak]
        exact huf2.out a ha
    · intro a ha
      dsimp only
      by_cases hc : rep a = rep p1
      · rw [if_pos hc]
        exact huf.rep_inR p2 hp2
      · rw [if_neg hc]
        exact huf.rep_inR a ha
    · intro a ha
      dsimp only
      by_cases hc : rep a = rep p1
      · rw [if_pos hc]
        rw [hrr2, if_neg (fun h => hne h.symm)]
      · rw [if_neg hc, huf.rep_idem a ha, if_neg hc]
  · intro a ha
    dsimp only
    by_cases hc : rep a = rep p1
    · rw [if_pos hc, if_pos hc]
      rw [compCard_merge W H rep (rep p1) (rep p2) hne]
      have h1 := hcard a ha
      rw [hc] at h1
      omega
    · rw [if_neg hc, if_neg hc]
      by_cases hc2 : rep a = rep p2
      · rw [hc2, compCard_merge W H rep (rep p1) (rep p2) hne]
        have h1 := hcard a ha
        rw [hc2] at h1
        omega
      · rw [compCard_untouched W H rep (rep p1) (rep p2) (rep a) hc hc2]
        exact hcard a ha

/-- C2, amended: on any union-find state satisfying the invariant (which
every state reachable in the builder does), calling `setGoal p1 p2` when
`p1` and `p2` already share a representative is NOT safe: it repoints the
shared representative at `p2`, closing a pointer cycle, and afterwards the
`goal` lookup diverges for every cell of that set — in particular for
`p2` itself (in Python, a `RecursionError` instead of a result). -/
theorem claim_C2_setGoal_same_goal_diverges (W H : Nat) (g : GoalGridF)
    (rep : GridLocation → GridLocation) (d : GridLocation → Nat)
    (p1 p2 : GridLocation) (huf : UFInv W H g rep d)
    (hcard : CardOK W H rep d) (hp1 : inRange W H p1)
    (hp2 : inRange W H p2) (heq : rep p1 = rep p2) :
    ∀ q, inRange W H q → rep q = rep p1 →
      goalDiverges (setGoal W H g p1 p2) q := by
  obtain ⟨g2, hgoal, huf2, -⟩ := goalT_spec W H g rep d p1 huf hcard hp1
  have hset : setGoal W H g p1 p2 =
      Function.update g2 (rep p1) (Cell.CanAccess p2) := by
    simp only [setGoal]
    rw [hgoal]
  rw [hset]
  suffices h : ∀ f q, inRange W H q → rep q = rep p1 →
      goalAux f (Function.update g2 (rep p1) (Cell.CanAccess p2)) q = none by
    intro q hq hr f
    exact h f q hq hr
  intro f
  induction f with
  | zero => intro q _ _; rfl
  | succ f ih =>
    intro q hq hr
    by_cases hqr : q = rep p1
    · subst hqr
      simp only [goalAux, Function.update_same]
      rw [ih p2 hp2 heq.symm]
    · have hcell : Function.update g2 (rep p1) (Cell.CanAccess p2) q = g2 q :=
        Function.update_noteq hqr _ _
      cases hc2 : g2 q with
      | Root l =>
        obtain ⟨-, hrep⟩ := huf2.root q l hq hc2
        exact absurd (hrep.symm.trans hr) hqr
      | CanAccess t =>
        obtain ⟨htin, htrep, -⟩ := huf2.point q t hq hc2
        simp only [goalAux, hcell, hc2]
        rw [ih t htin (htrep.trans hr)]

/-- Witness for the amended C2, on the reachable 1×2 state in which the two
cells were already unioned: after the redundant `setGoal`, `goal` at
`(0,1)` diverges. -/
theorem claim_C2_witness :
    goalDiverges
      (setGoal 1 2 (setGoal 1 2 initGoalGrid ⟨0, 0⟩ ⟨0, 1⟩) ⟨0, 0⟩ ⟨0, 1⟩)
      ⟨0, 1⟩ := by
  have hmem : ∀ p : GridLocation, inRange 1 2 p → p = ⟨0, 0⟩ ∨ p = ⟨0, 1⟩ := by
    intro p hp
    obtain ⟨px, py⟩ := p
    have hp' : 0 ≤ px ∧ px < (1 : Int) ∧ 0 ≤ py ∧ py < (2 : Int) := hp
    obtain ⟨a1, a2, a3, a4⟩ := hp'
    have hx : px = 0 := by omega
    rcases show py = 0 ∨ py = 1 by omega with h | h
    · left
      rw [GridLocation.mk.injEq]
      exact ⟨hx, h⟩
    · right
      rw [GridLocation.mk.injEq]
      exact ⟨hx, h⟩
  have e00 : (setGoal 1 2 initGoalGrid ⟨0, 0⟩ ⟨0, 1⟩) ⟨0, 0⟩ =
      Cell.CanAccess ⟨0, 1⟩ := by decide
  have e01 : (setGoal 1 2 initGoalGrid ⟨0, 0⟩ ⟨0, 1⟩) ⟨0, 1⟩ =
      Cell.Root ⟨0, 1⟩ := by decide
  have huf : UFInv 1 2 (setGoal 1 2 initGoalGrid ⟨0, 0⟩ ⟨0, 1⟩)
      (fun q => if q = ⟨0, 0⟩ then ⟨0, 1⟩ else q)
      (fun q => if q = ⟨0, 0⟩ then 1 else 0) := by
    constructor
    · intro p l hp hcell
      rcases hmem p hp with h | h
      · subst h
        rw [e00] at hcell
        exact absurd hcell (by simp)
      · subst h
        rw [e01] at hcell
        injection hcell with h2
        exact ⟨h2.symm, by decide⟩
    · intro p q hp hcell
      rcases hmem p hp with h | h
      · subst h
        rw [e00] at hcell
        injection hcell with h2
        subst h2
        exact ⟨by decide, by decide, by decide⟩
      · subst h
        rw [e01] at hcell
        exact absurd hcell (by simp)
    · intro p hp
      have hne : p ≠ ⟨0, 0⟩ := by
        intro h
        subst h
        exact hp (by decide)
      show Function.update initGoalGrid ⟨0, 0⟩ (Cell.CanAccess ⟨0, 1⟩) p = _
      rw [Function.update_noteq hne]
      rfl
    · intro p hp
      dsimp only
      by_cases h : p = ⟨0, 0⟩
      · rw [if_pos h]
        decide
      · rw [if_neg h]
        exact hp
    · intro p hp
      dsimp only
      by_cases h : p = ⟨0, 0⟩
      · rw [if_pos h]
        decide
      · rw [if_neg h, if_neg h]
  have hcard : CardOK 1 2 (fun q => if q = ⟨0, 0⟩ then ⟨0, 1⟩ else q)
      (fun q => if q = ⟨0, 0⟩ then 1 else 0) := by
    intro p hp
    rcases hmem p hp with h | h
    · subst h
      decide
    · subst h
      decide
  exact claim_C2_setGoal_same_goal_diverges 1 2 _ _ _ ⟨0, 0⟩ ⟨0, 1⟩ huf hcard
    (by decide) (by decide) (by decide) ⟨0, 1⟩ (by decide) (by decide)

/-- Counterexample to C2 as stated: on the reachable 1×2 state in which
`(0,0)` and `(0,1)` were already unioned, `goal` returns the same
representative for both (the claim's precondition), yet after calling
`setGoal` again the `goal` lookup at `(0,1)` no longer terminates, so the
call is neither safe nor a no-op. -/
theorem claim_C2_counterexample :
    ((goalT 1 2 (setGoal 1 2 initGoalGrid ⟨0, 0⟩ ⟨0, 1⟩) ⟨0, 0⟩).1 =
        (goalT 1 2 (setGoal 1 2 initGoalGrid ⟨0, 0⟩ ⟨0, 1⟩) ⟨0, 1⟩).1) ∧
      goalDiverges
        (setGoal 1 2 (setGoal 1 2 initGoalGrid ⟨0, 0⟩ ⟨0, 1⟩) ⟨0, 0⟩ ⟨0, 1⟩)
        ⟨0, 1⟩ := by
  constructor
  · decide
  · have hb : (setGoal 1 2 (setGoal 1 2 initGoalGrid ⟨0, 0⟩ ⟨0, 1⟩)
        ⟨0, 0⟩ ⟨0, 1⟩) ⟨0, 1⟩ = Cell.CanAccess ⟨0, 1⟩ := by decide
    intro f
    induction f with
    | zero => rfl
    | succ f ih =>
      simp only [goalAux, hb, ih]

theorem adjWays_symm (ways : WayGridF) {p q : GridLocation}
    (h : adjWays ways p q) : adjWays ways q p := by
  unfold adjWays at h ⊢
  tauto

theorem reach_symm (ways : WayGridF) {p q : GridLocation}
    (h : Reach ways p q) : Reach ways q p := by
  induction h with
  | refl => exact .refl
  | tail _ h2 ih => exact Relation.ReflTransGen.head (adjWays_symm ways h2) ih

theorem reach_mono (w1 w2 : WayGridF) (hle : ∀ p c, c ∈ w1 p → c ∈ w2 p)
    {p q : GridLocation} (h : Reach w1 p q) : Reach w2 p q := by
  refine Relation.ReflTransGen.mono ?_ h
  intro a b hab
  unfold adjWays at hab ⊢
  rcases hab with ⟨h1, h2⟩ | ⟨h1, h2⟩ | ⟨h1, h2⟩ | ⟨h1, h2⟩
  · exact Or.inl ⟨hle _ _ h1, h2⟩
  · exact Or.inr (Or.inl ⟨hle _ _ h1, h2⟩)
  · exact Or.inr (Or.inr (Or.inl ⟨hle _ _ h1, h2⟩))
  · exact Or.inr (Or.inr (Or.inr ⟨hle _ _ h1, h2⟩))

theorem appendWay_le (ways : WayGridF) (A : GridLocation) (w : Char) :
    ∀ p c, c ∈ ways p → c ∈ appendWay ways A w p := by
  intro p c hc
  unfold appendWay
  by_cases hp : p = A
  · subst hp
    rw [Function.update_same]
    exact List.mem_append_left _ hc
  · rw [Function.update_noteq hp]
    exact hc

theorem erasePass_le (ways : WayGridF) (p0 : GridLocation) (c0 : Char) :
    ∀ p c, c ∈ erasePass ways p0 c0 p → c ∈ ways p := by
  intro p c hc
  unfold erasePass at hc
  by_cases hp : p = p0
  · subst hp
    rw [Function.update_same] at hc
    exact List.mem_of_mem_erase hc
  · rw [Function.update_noteq hp] at hc
    exact hc

/-- Every adjacency comes from a recorded passage: a cell `x` and direction
character `c` with `c ∈ ways x`, connecting `x` and `passTarget x c`. -/
theorem adjWays_iff_passage (ways : WayGridF) (p q : GridLocation) :
    adjWays ways p q ↔ ∃ x c, (c = 'E' ∨ c = 'S') ∧ c ∈ ways x ∧
      ((p = x ∧ q = passTarget x c) ∨ (q = x ∧ p = passTarget x c)) := by
  unfold adjWays passTarget
  constructor
  · rintro (⟨hm, he⟩ | ⟨hm, he⟩ | ⟨hm, he⟩ | ⟨hm, he⟩)
    · refine ⟨p, 'E', Or.inl rfl, hm, Or.inl ⟨rfl, ?_⟩⟩
      rw [if_pos rfl]
      exact he
    · refine ⟨p, 'S', Or.inr rfl, hm, Or.inl ⟨rfl, ?_⟩⟩
      rw [if_neg (by decide)]
      exact he
    · refine ⟨q, 'E', Or.inl rfl, hm, Or.inr ⟨rfl, ?_⟩⟩
      rw [if_pos rfl]
      exact he
    · refine ⟨q, 'S', Or.inr rfl, hm, Or.inr ⟨rfl, ?_⟩⟩
      rw [if_neg (by decide)]
      exact he
  · rintro ⟨x, c, hc, hm, hpq⟩
    rcases hc with rfl | rfl
    · rw [if_pos rfl] at hpq
      rcases hpq with ⟨rfl, rfl⟩ | ⟨rfl, rfl⟩
      · exact Or.inl ⟨hm, rfl⟩
      · exact Or.inr (Or.inr (Or.inl ⟨hm, rfl⟩))
    · rw [if_neg (by decide)] at hpq
      rcases hpq with ⟨rfl, rfl⟩ | ⟨rfl, rfl⟩
      · exact Or.inr (Or.inl ⟨hm, rfl⟩)
      · exact Or.inr (Or.inr (Or.inr ⟨hm, rfl⟩))

theorem mem_appendWay (ways : WayGridF) (A : GridLocation) (w : Char)
    (x : GridLocation) (c : Char) :
    c ∈ appendWay ways A w x ↔ c ∈ ways x ∨ (x = A ∧ c = w) := by
  unfold appendWay
  by_cases hx : x = A
  · subst hx
    rw [Function.update_same, List.mem_append, List.mem_singleton]
    tauto
  · rw [Function.update_noteq hx]
    constructor
    · intro h
      exact Or.inl h
    · rintro (h | ⟨h, -⟩)
      · exact h
      · exact absurd h hx

theorem mem_erasePass (ways : WayGridF) (p0 : GridLocation) (c0 : Char)
    (hcount : (ways p0).count c0 ≤ 1) (x : GridLocation) (c : Char) :
    c ∈ erasePass ways p0 c0 x ↔ c ∈ ways x ∧ ¬(x = p0 ∧ c = c0) := by
  unfold erasePass
  by_cases hx : x = p0
  · subst hx
    rw [Function.update_same]
    constructor
    · intro hc
      refine ⟨List.mem_of_mem_erase hc, ?_⟩
      rintro ⟨-, rfl⟩
      have h2 : 0 < (ways x).count c := List.count_pos_iff.mpr
        (List.mem_of_mem_erase hc)
      have h3 : ((ways x).erase c).count c = (ways x).count c - 1 :=
        List.count_erase_self c (ways x)
      have h4 : 0 < ((ways x).erase c).count c :=
        List.count_pos_iff.mpr hc
      omega
    · rintro ⟨hm, hne⟩
      have hcc : c ≠ c0 := fun h => hne ⟨rfl, h⟩
      exact (List.mem_erase_of_ne hcc).mpr hm
  · rw [Function.update_noteq hx]
    constructor
    · intro hc
      exact ⟨hc, fun h => hx h.1⟩
    · intro hc
      exact hc.1

/-- An adjacency not using the erased passage survives the erasure. -/
theorem adj_erase_of_ne (ways : WayGridF) (p0 : GridLocation) (c0 : Char)
    (hcount : (ways p0).count c0 ≤ 1) {p q : GridLocation}
    (h : adjWays ways p q)
    (hne : ¬((p = p0 ∧ q = passTarget p0 c0) ∨
      (q = p0 ∧ p = passTarget p0 c0))) :
    adjWays (erasePass ways p0 c0) p q := by
  rw [adjWays_iff_passage] at h ⊢
  obtain ⟨x, c, hc, hm, hpq⟩ := h
  refine ⟨x, c, hc, ?_, hpq⟩
  rw [mem_erasePass ways p0 c0 hcount]
  refine ⟨hm, ?_⟩
  rintro ⟨rfl, rfl⟩
  exact hne hpq

theorem adj_appendWay (ways : WayGridF) (A : GridLocation) (w : Char)
    (hw : w = 'E' ∨ w = 'S') (p q : GridLocation) :
    adjWays (appendWay ways A w) p q ↔
      adjWays ways p q ∨ (p = A ∧ q = passTarget A w) ∨
        (q = A ∧ p = passTarget A w) := by
  rw [adjWays_iff_passage, adjWays_iff_passage]
  constructor
  · rintro ⟨x, c, hc, hm, hpq⟩
    rw [mem_appendWay] at hm
    rcases hm with hm | ⟨rfl, rfl⟩
    · exact Or.inl ⟨x, c, hc, hm, hpq⟩
    · rcases hpq with ⟨rfl, rfl⟩ | ⟨rfl, rfl⟩
      · exact Or.inr (Or.inl ⟨rfl, rfl⟩)
      · exact Or.inr (Or.inr ⟨rfl, rfl⟩)
  · rintro (⟨x, c, hc, hm, hpq⟩ | ⟨h1, h2⟩ | ⟨h1, h2⟩)
    · exact ⟨x, c, hc, (mem_appendWay ways A w x c).mpr (Or.inl hm), hpq⟩
    · exact ⟨A, w, hw, (mem_appendWay ways A w A w).mpr (Or.inr ⟨rfl, rfl⟩),
        Or.inl ⟨h1, h2⟩⟩
    · exact ⟨A, w, hw, (mem_appendWay ways A w A w).mpr (Or.inr ⟨rfl, rfl⟩),
        Or.inr ⟨h1, h2⟩⟩

/-- Reachability after adding an edge `A — passTarget A w` decomposes into a
path avoiding the new edge, or one crossing it in either direction. -/
theorem reach_appendWay_rec (ways : WayGridF) (A : GridLocation) (w : Char)
    (hw : w = 'E' ∨ w = 'S') {p q : GridLocation}
    (h : Reach (appendWay ways A w) p q) :
    Reach ways p q ∨ (Reach ways p A ∧ Reach ways (passTarget A w) q) ∨
      (Reach ways p (passTarget A w) ∧ Reach ways A q) := by
  induction h with
  | refl => exact Or.inl .refl
  | tail _ hstep ih =>
    rw [adj_appendWay ways A w hw] at hstep
    rcases hstep with hadj | ⟨rfl, rfl⟩ | ⟨rfl, rfl⟩
    · rcases ih with h | ⟨ha, hb⟩ | ⟨ha, hb⟩
      · exact Or.inl (h.tail hadj)
      · exact Or.inr (Or.inl ⟨ha, hb.tail hadj⟩)
      · exact Or.inr (Or.inr ⟨ha, hb.tail hadj⟩)
    · rcases ih with h | ⟨ha, hb⟩ | ⟨ha, hb⟩
      · exact Or.inr (Or.inl ⟨h, .refl⟩)
      · exact Or.inr (Or.inl ⟨ha, .refl⟩)
      · exact Or.inl ha
    · rcases ih with h | ⟨ha, hb⟩ | ⟨ha, hb⟩
      · exact Or.inr (Or.inr ⟨h, .refl⟩)
      · exact Or.inl ha
      · exact Or.inr (Or.inr ⟨ha, .refl⟩)

/-- Both endpoints of an adjacency on a `WaysOK` grid are in range. -/
theorem adj_inRange (W H : Nat) (ways : WayGridF) (hOK : WaysOK W H ways)
    {p q : GridLocation} (h : adjWays ways p q) :
    inRange W H p ∧ inRange W H q := by
  rw [adjWays_iff_passage] at h
  obtain ⟨x, c, hc, hm, hpq⟩ := h
  obtain ⟨xx, xy⟩ := x
  have htin : inRange W H (passTarget ⟨xx, xy⟩ c) ∧ inRange W H ⟨xx, xy⟩ := by
    rcases hc with rfl | rfl
    · obtain ⟨b1, b2, b3, b4⟩ := waysOK_E W H ways hOK hm
      unfold passTarget
      rw [if_pos rfl]
      unfold inRange
      dsimp only
      exact ⟨⟨by omega, by omega, by omega, by omega⟩,
        ⟨by omega, by omega, by omega, by omega⟩⟩
    · obtain ⟨b1, b2, b3, b4⟩ := waysOK_S W H ways hOK hm
      unfold passTarget
      rw [if_neg (by decide)]
      unfold inRange
      dsimp only
      exact ⟨⟨by omega, by omega, by omega, by omega⟩,
        ⟨by omega, by omega, by omega, by omega⟩⟩
  rcases hpq with ⟨h1, h2⟩ | ⟨h1, h2⟩
  · subst h1
    subst h2
    exact ⟨htin.2, htin.1⟩
  · subst h1
    subst h2
    exact ⟨htin.1, htin.2⟩

/-- A recorded passage's direction character, via `WaysOK`. -/
theorem passage_char (W H : Nat) (ways : WayGridF) (hOK : WaysOK W H ways)
    {p : GridLocation} {c : Char} (hc : c ∈ ways p) : c = 'E' ∨ c = 'S' := by
  rcases (hOK p c hc).2 with ⟨h, -⟩ | ⟨h, -⟩
  · exact Or.inl h
  · exact Or.inr h

/-- A recorded passage is an adjacency between its cell and its target. -/
theorem passage_adj (W H : Nat) (ways : WayGridF) (hOK : WaysOK W H ways)
    {p : GridLocation} {c : Char} (hc : c ∈ ways p) :
    adjWays ways p (passTarget p c) :=
  (adjWays_iff_passage ways p (passTarget p c)).mpr
    ⟨p, c, passage_char W H ways hOK hc, hc, Or.inl ⟨rfl, rfl⟩⟩

/-- The target of a recorded passage is in range. -/
theorem passTarget_inRange (W H : Nat) (ways : WayGridF) (hOK : WaysOK W H ways)
    {p : GridLocation} {c : Char} (hc : c ∈ ways p) :
    inRange W H (passTarget p c) :=
  (adj_inRange W H ways hOK (passage_adj W H ways hOK hc)).2

/-- Adjacent cells share a representative under the partition invariant. -/
theorem adj_rep_eq (W H : Nat) (ways : WayGridF)
    (rep : GridLocation → GridLocation) (hOK : WaysOK W H ways)
    (hpart : ∀ p q, inRange W H p → inRange W H q →
      (rep p = rep q ↔ Reach ways p q))
    {p q : GridLocation} (h : adjWays ways p q) : rep p = rep q := by
  obtain ⟨hp, hq⟩ := adj_inRange W H ways hOK h
  exact (hpart p q hp hq).mpr (Relation.ReflTransGen.single h)

/-- Erasing the passage that was just appended restores the original grid. -/
theorem erasePass_appendWay_self (ways : WayGridF) (A : GridLocation) (w : Char)
    (hnot : ¬ w ∈ ways A) :
    erasePass (appendWay ways A w) A w = ways := by
  have e1 : appendWay ways A w A = ways A ++ [w] := by
    unfold appendWay
    rw [Function.update_same]
  unfold erasePass
  rw [e1, List.erase_append_right _ hnot, List.erase_cons_head, List.append_nil]
  unfold appendWay
  rw [Function.update_idem, Function.update_eq_self]

/-- Erasing an old passage commutes with appending a different one. -/
theorem erasePass_appendWay_comm (ways : WayGridF) (p : GridLocation) (c : Char)
    (A : GridLocation) (w : Char) (hc : c ∈ ways p) (hne : ¬(p = A ∧ c = w)) :
    erasePass (appendWay ways A w) p c = appendWay (erasePass ways p c) A w := by
  by_cases hp : p = A
  · subst hp
    unfold erasePass appendWay
    simp only [Function.update_idem, Function.update_same]
    rw [List.erase_append_left _ hc]
  · unfold erasePass appendWay
    have h1 : Function.update ways A (ways A ++ [w]) p = ways p :=
      Function.update_noteq hp _ _
    have h2 : Function.update ways p ((ways p).erase c) A = ways A :=
      Function.update_noteq (fun h => hp h.symm) _ _
    rw [h1, h2]
    exact Function.update_comm (fun h => hp h.symm) _ _ _

/-- Appending one direction character adds one recorded passage in total. -/
theorem passTotal_appendWay (W H : Nat) (ways : WayGridF) (A : GridLocation)
    (w : Char) (hA : inRange W H A) :
    passTotal W H (appendWay ways A w) = passTotal W H ways + 1 := by
  unfold passTotal appendWay
  have hmem : A ∈ inRangeFinset W H := mem_inRangeFinset.mpr hA
  rw [← Finset.add_sum_erase (inRangeFinset W H)
      (fun p => (Function.update ways A (ways A ++ [w]) p).length) hmem,
    ← Finset.add_sum_erase (inRangeFinset W H) (fun p => (ways p).length) hmem]
  have hsum : Finset.sum ((inRangeFinset W H).erase A)
        (fun p => (Function.update ways A (ways A ++ [w]) p).length) =
      Finset.sum ((inRangeFinset W H).erase A) (fun p => (ways p).length) := by
    apply Finset.sum_congr rfl
    intro x hx
    rw [Function.update_noteq (Finset.ne_of_mem_erase hx)]
  rw [hsum, Function.update_same, List.length_append, List.length_singleton]
  omega

/-- Merging two distinct inhabited components loses exactly one component. -/
theorem compTotal_merge (W H : Nat) (rep : GridLocation → GridLocation)
    (r1 r2 : GridLocation) (hne : r1 ≠ r2)
    (hA : ∃ a, a ∈ inRangeFinset W H ∧ rep a = r1)
    (hB : ∃ b, b ∈ inRangeFinset W H ∧ rep b = r2) :
    compTotal W H (fun x => if rep x = r1 then r2 else rep x) + 1 =
      compTotal W H rep := by
  unfold compTotal
  have himg : (inRangeFinset W H).image
        (fun x => if rep x = r1 then r2 else rep x) =
      ((inRangeFinset W H).image rep).erase r1 := by
    ext r
    rw [Finset.mem_image, Finset.mem_erase, Finset.mem_image]
    constructor
    · rintro ⟨q, hq, hr⟩
      by_cases hc : rep q = r1
      · rw [if_pos hc] at hr
        subst hr
        obtain ⟨b, hb, hrb⟩ := hB
        exact ⟨hne.symm, b, hb, hrb⟩
      · rw [if_neg hc] at hr
        subst hr
        exact ⟨hc, q, hq, rfl⟩
    · rintro ⟨hr1, q, hq, hrq⟩
      by_cases hc : rep q = r1
      · exact absurd (hrq.symm.trans hc) hr1
      · refine ⟨q, hq, ?_⟩
        rw [if_neg hc]
        exact hrq
  rw [himg, Finset.card_erase_of_mem]
  · obtain ⟨a, ha, hra⟩ := hA
    have hmem : r1 ∈ (inRangeFinset W H).image rep :=
      Finset.mem_image.mpr ⟨a, ha, hra⟩
    have hpos : 0 < ((inRangeFinset W H).image rep).card :=
      Finset.card_pos.mpr ⟨r1, hmem⟩
    omega
  · obtain ⟨a, ha, hra⟩ := hA
    exact Finset.mem_image.mpr ⟨a, ha, hra⟩

/-- One guarded builder edge preserves the full invariant, connects the
edge's endpoints, and only grows the passage grid. -/
theorem tryEdge_inv (W H : Nat) (s : GoalGridF × WayGridF)
    (rep : GridLocation → GridLocation) (d : GridLocation → Nat)
    (hB : BInv W H s.1 s.2 rep d) (A : GridLocation) (w : Char)
    (hw : (w = 'E' ∧ A.x < (W : Int) - 1) ∨ (w = 'S' ∧ A.y < (H : Int) - 1))
    (hA : inRange W H A) (hT : inRange W H (passTarget A w)) :
    StateInv W H (tryEdge W H s A (passTarget A w) w) ∧
      Reach (tryEdge W H s A (passTarget A w) w).2 A (passTarget A w) ∧
      ∀ p c, c ∈ s.2 p → c ∈ (tryEdge W H s A (passTarget A w) w).2 p := by
  have hwES : w = 'E' ∨ w = 'S' := by
    rcases hw with ⟨h, -⟩ | ⟨h, -⟩
    · exact Or.inl h
    · exact Or.inr h
  obtain ⟨g2A, hgA, hufA, -⟩ := goalT_spec W H s.1 rep d A hB.uf hB.card hA
  obtain ⟨g2B, hgB, hufB, -⟩ :=
    goalT_spec W H g2A rep d (passTarget A w) hufA hB.card hT
  have hstep : tryEdge W H s A (passTarget A w) w =
      if rep A = rep (passTarget A w) then (g2B, s.2)
      else (setGoal W H g2B A (passTarget A w), appendWay s.2 A w) := by
    simp only [tryEdge]
    rw [hgA]
    dsimp only
    rw [hgB]
  rw [hstep]
  by_cases hRep : rep A = rep (passTarget A w)
  · rw [if_pos hRep]
    refine ⟨⟨rep, d, ?_⟩, ?_, fun p c hc => hc⟩
    · exact ⟨hufB, hB.card, hB.waysok, hB.counts, hB.partition, hB.total,
        hB.bridges⟩
    · exact (hB.partition A (passTarget A w) hA hT).mp hRep
  · rw [if_neg hRep]
    obtain ⟨huf3, hcard3⟩ :=
      setGoal_spec W H g2B rep d A (passTarget A w) hufB hB.card hA hT hRep
    have hnotmem : ¬ w ∈ s.2 A := by
      intro hmem
      have hadj : adjWays s.2 A (passTarget A w) :=
        (adjWays_iff_passage s.2 A (passTarget A w)).mpr
          ⟨A, w, hwES, hmem, Or.inl ⟨rfl, rfl⟩⟩
      exact hRep ((hB.partition A (passTarget A w) hA hT).mpr
        (Relation.ReflTransGen.single hadj))
    have hAdjNew : adjWays (appendWay s.2 A w) A (passTarget A w) := by
      rw [adjWays_iff_passage]
      refine ⟨A, w, hwES, ?_, Or.inl ⟨rfl, rfl⟩⟩
      rw [mem_appendWay]
      exact Or.inr ⟨rfl, rfl⟩
    have hrep2_eq : ∀ b c2 : GridLocation, adjWays (appendWay s.2 A w) b c2 →
        (if rep b = rep A then rep (passTarget A w) else rep b) =
          (if rep c2 = rep A then rep (passTarget A w) else rep c2) := by
      intro b c2 hstep2
      rw [adj_appendWay s.2 A w hwES] at hstep2
      rcases hstep2 with hadj | ⟨hb, hc⟩ | ⟨hb, hc⟩
      · rw [adj_rep_eq W H s.2 rep hB.waysok hB.partition hadj]
      · rw [hb, hc, if_pos rfl, if_neg (fun h => hRep h.symm)]
      · rw [hb, hc, if_neg (fun h => hRep h.symm), if_pos rfl]
    have hback : ∀ p q, Reach (appendWay s.2 A w) p q →
        (if rep p = rep A then rep (passTarget A w) else rep p) =
          (if rep q = rep A then rep (passTarget A w) else rep q) := by
      intro p q hreach
      induction hreach with
      | refl => rfl
      | tail h1 hstep2 ih => exact ih.trans (hrep2_eq _ _ hstep2)
    refine ⟨⟨fun x => if rep x = rep A then rep (passTarget A w) else rep x,
      fun x => if rep x = rep A then
        d x + compCard W H rep (rep (passTarget A w)) else d x, ?_⟩, ?_, ?_⟩
    · refine ⟨huf3, hcard3, ?_, ?_, ?_, ?_, ?_⟩
      · exact waysOK_append W H s.2 hB.waysok A w hA hw
      · dsimp only
        intro p c
        by_cases hp : p = A
        · rw [hp]
          have e1 : appendWay s.2 A w A = s.2 A ++ [w] := by
            unfold appendWay
            rw [Function.update_same]
          rw [e1, List.count_append]
          by_cases hcw : c = w
          · have h0 : (s.2 A).count c = 0 := by
              rw [hcw]
              exact List.count_eq_zero.mpr hnotmem
            have h1 : [w].count c ≤ 1 := by
              rw [hcw]
              simp
            omega
          · have h1 : [w].count c = 0 := by
              apply List.count_eq_zero.mpr
              simp [hcw]
            have h2 := hB.counts A c
            omega
        · have e1 : appendWay s.2 A w p = s.2 p := by
            unfold appendWay
            rw [Function.update_noteq hp]
          rw [e1]
          exact hB.counts p c
      · intro p q hp hq
        dsimp only
        constructor
        · intro hrepeq
          by_cases hp1 : rep p = rep A <;> by_cases hq1 : rep q = rep A
          · exact reach_mono _ _ (appendWay_le s.2 A w)
              ((hB.partition p q hp hq).mp (hp1.trans hq1.symm))
          · rw [if_pos hp1, if_neg hq1] at hrepeq
            have h1 : Reach s.2 p A := (hB.partition p A hp hA).mp hp1
            have h2 : Reach s.2 (passTarget A w) q :=
              (hB.partition (passTarget A w) q hT hq).mp hrepeq
            exact Relation.ReflTransGen.trans
              (reach_mono _ _ (appendWay_le s.2 A w) h1)
              (Relation.ReflTransGen.head hAdjNew
                (reach_mono _ _ (appendWay_le s.2 A w) h2))
          · rw [if_neg hp1, if_pos hq1] at hrepeq
            have h1 : Reach s.2 p (passTarget A w) :=
              (hB.partition p (passTarget A w) hp hT).mp hrepeq
            have h2 : Reach s.2 A q := (hB.partition A q hA hq).mp hq1.symm
            exact Relation.ReflTransGen.trans
              (reach_mono _ _ (appendWay_le s.2 A w) h1)
              (Relation.ReflTransGen.head (adjWays_symm _ hAdjNew)
                (reach_mono _ _ (appendWay_le s.2 A w) h2))
          · rw [if_neg hp1, if_neg hq1] at hrepeq
            exact reach_mono _ _ (appendWay_le s.2 A w)
              ((hB.partition p q hp hq).mp hrepeq)
        · exact hback p q
      · dsimp only
        rw [passTotal_appendWay W H s.2 A w hA]
        have h2 := compTotal_merge W H rep (rep A) (rep (passTarget A w)) hRep
          ⟨A, mem_inRangeFinset.mpr hA, rfl⟩
          ⟨passTarget A w, mem_inRangeFinset.mpr hT, rfl⟩
        have h3 := hB.total
        omega
      · dsimp only
        intro p c hc hreach
        rw [mem_appendWay] at hc
        rcases hc with hc | ⟨hp1, hc1⟩
        · have hne2 : ¬(p = A ∧ c = w) := by
            rintro ⟨h1, h2⟩
            rw [h1, h2] at hc
            exact hnotmem hc
          rw [erasePass_appendWay_comm s.2 p c A w hc hne2] at hreach
          have hpin : inRange W H p := (hB.waysok p c hc).1
          have htgtin : inRange W H (passTarget p c) :=
            passTarget_inRange W H s.2 hB.waysok hc
          have e3 : rep p = rep (passTarget p c) :=
            (hB.partition p (passTarget p c) hpin htgtin).mpr
              (Relation.ReflTransGen.single (passage_adj W H s.2 hB.waysok hc))
          rcases reach_appendWay_rec (erasePass s.2 p c) A w hwES hreach with
            h | ⟨h1, h2⟩ | ⟨h1, h2⟩
          · exact hB.bridges p c hc h
          · have m1 : Reach s.2 p A :=
              reach_mono _ _ (erasePass_le s.2 p c) h1
            have m2 : Reach s.2 (passTarget A w) (passTarget p c) :=
              reach_mono _ _ (erasePass_le s.2 p c) h2
            have e1 : rep p = rep A := (hB.partition p A hpin hA).mpr m1
            have e2 : rep (passTarget A w) = rep (passTarget p c) :=
              (hB.partition (passTarget A w) (passTarget p c) hT htgtin).mpr m2
            exact hRep (e1.symm.trans (e3.trans e2.symm))
          · have m1 : Reach s.2 p (passTarget A w) :=
              reach_mono _ _ (erasePass_le s.2 p c) h1
            have m2 : Reach s.2 A (passTarget p c) :=
              reach_mono _ _ (erasePass_le s.2 p c) h2
            have e1 : rep p = rep (passTarget A w) :=
              (hB.partition p (passTarget A w) hpin hT).mpr m1
            have e2 : rep A = rep (passTarget p c) :=
              (hB.partition A (passTarget p c) hA htgtin).mpr m2
            exact hRep (e2.trans (e3.symm.trans e1))
        · rw [hp1, hc1] at hreach
          rw [erasePass_appendWay_self s.2 A w hnotmem] at hreach
          exact hRep ((hB.partition A (passTarget A w) hA hT).mpr hreach)
    · exact Relation.ReflTransGen.single hAdjNew
    · exact appendWay_le s.2 A w

/-- One builder iteration preserves the invariant, only grows the passage
grid, and connects the edge's endpoints whenever its guard passes. -/
theorem mazeStep_inv (W H : Nat) (s : GoalGridF × WayGridF)
    (e : Int × Int × Char) (he : e ∈ wallsList W H) (hs : StateInv W H s) :
    StateInv W H (mazeStep W H s e) ∧
      (∀ p c, c ∈ s.2 p → c ∈ (mazeStep W H s e).2 p) ∧
      (((e.2.2 = 'E' ∧ e.1 < (W : Int) - 1) ∨
          (e.2.2 = 'S' ∧ e.2.1 < (H : Int) - 1)) →
        Reach (mazeStep W H s e).2 ⟨e.1, e.2.1⟩
          (passTarget ⟨e.1, e.2.1⟩ e.2.2)) := by
  obtain ⟨hwc, hx0, hxW, hy0, hyH⟩ := mem_wallsList.mp he
  obtain ⟨rep, d, hB⟩ := hs
  have hA : inRange W H ⟨e.1, e.2.1⟩ := ⟨hx0, hxW, hy0, hyH⟩
  simp only [mazeStep]
  by_cases hE : e.2.2 = 'E' ∧ e.1 < (W : Int) - 1
  · by_cases hS : e.2.2 = 'S' ∧ e.2.1 < (H : Int) - 1
    · exact absurd (hE.1.symm.trans hS.1) (by decide)
    · rw [if_pos hE, if_neg hS]
      have htgt : passTarget ⟨e.1, e.2.1⟩ e.2.2 = ⟨e.1 + 1, e.2.1⟩ := by
        unfold passTarget
        rw [if_pos hE.1]
      have hT : inRange W H (passTarget ⟨e.1, e.2.1⟩ e.2.2) := by
        rw [htgt]
        unfold inRange
        dsimp only
        obtain ⟨-, hlt⟩ := hE
        exact ⟨by omega, by omega, by omega, by omega⟩
      rw [← htgt]
      obtain ⟨h1, h2, h3⟩ := tryEdge_inv W H s rep d hB ⟨e.1, e.2.1⟩ e.2.2
        (Or.inl ⟨hE.1, hE.2⟩) hA hT
      exact ⟨h1, h3, fun _ => h2⟩
  · by_cases hS : e.2.2 = 'S' ∧ e.2.1 < (H : Int) - 1
    · rw [if_neg hE, if_pos hS]
      have htgt : passTarget ⟨e.1, e.2.1⟩ e.2.2 = ⟨e.1, e.2.1 + 1⟩ := by
        unfold passTarget
        rw [if_neg (fun h => absurd (hS.1.symm.trans h) (by decide))]
      have hT : inRange W H (passTarget ⟨e.1, e.2.1⟩ e.2.2) := by
        rw [htgt]
        unfold inRange
        dsimp only
        obtain ⟨-, hlt⟩ := hS
        exact ⟨by omega, by omega, by omega, by omega⟩
      rw [← htgt]
      obtain ⟨h1, h2, h3⟩ := tryEdge_inv W H s rep d hB ⟨e.1, e.2.1⟩ e.2.2
        (Or.inr ⟨hS.1, hS.2⟩) hA hT
      exact ⟨h1, h3, fun _ => h2⟩
    · rw [if_neg hE, if_neg hS]
      refine ⟨⟨rep, d, hB⟩, fun p c hc => hc, ?_⟩
      intro hguard
      rcases hguard with h | h
      · exact absurd h hE
      · exact absurd h hS

/-- The initial builder state: all singleton components, no passages. -/
theorem stateInv_init (W H : Nat) : StateInv W H (initGoalGrid, initWayGrid) := by
  refine ⟨id, fun _ => 0, ⟨?_, ?_, ?_, ?_, ?_⟩, ?_, ?_, ?_, ?_, ?_, ?_⟩
  · intro p l hp hcell
    injection hcell with h
    exact ⟨h.symm, rfl⟩
  · intro p q hp hcell
    exact absurd hcell (by simp [initGoalGrid])
  · intro p hp
    rfl
  · intro p hp
    exact hp
  · intro p hp
    rfl
  · intro p hp
    dsimp only
    apply Finset.card_pos.mpr
    exact ⟨p, Finset.mem_filter.mpr ⟨mem_inRangeFinset.mpr hp, rfl⟩⟩
  · intro p c hc
    exact absurd hc (by simp [initWayGrid])
  · intro p c
    simp [initWayGrid]
  · intro p q hp hq
    constructor
    · intro h
      have h2 : p = q := h
      rw [h2]
      exact Relation.ReflTransGen.refl
    · intro hreach
      induction hreach with
      | refl => rfl
      | tail h1 hstep ih =>
        exfalso
        unfold adjWays initWayGrid at hstep
        simp at hstep
  · unfold compTotal passTotal
    rw [Finset.image_id, card_inRangeFinset]
    simp [initWayGrid]
  · intro p c hc
    exact absurd hc (by simp [initWayGrid])

/-- Folding the builder over any list of candidate edges from a valid
start state: the invariant holds at the end, the passage grid only grows,
and every processed guarded edge has its endpoints connected. -/
theorem buildFold_inv (W H : Nat) :
    ∀ (L : List (Int × Int × Char)) (s : GoalGridF × WayGridF),
      StateInv W H s → (∀ e ∈ L, e ∈ wallsList W H) →
      StateInv W H (L.foldl (mazeStep W H) s) ∧
        (∀ p c, c ∈ s.2 p → c ∈ (L.foldl (mazeStep W H) s).2 p) ∧
        (∀ e ∈ L, ((e.2.2 = 'E' ∧ e.1 < (W : Int) - 1) ∨
            (e.2.2 = 'S' ∧ e.2.1 < (H : Int) - 1)) →
          Reach (L.foldl (mazeStep W H) s).2 ⟨e.1, e.2.1⟩
            (passTarget ⟨e.1, e.2.1⟩ e.2.2)) := by
  intro L
  induction L with
  | nil =>
    intro s hs _
    exact ⟨hs, fun p c hc => hc, fun e he => absurd he (List.not_mem_nil e)⟩
  | cons a L ih =>
    intro s hs hall
    obtain ⟨h1, h2, h3⟩ := mazeStep_inv W H s a (hall a (List.mem_cons_self a L)) hs
    obtain ⟨ih1, ih2, ih3⟩ := ih (mazeStep W H s a) h1
      (fun e he => hall e (List.mem_cons_of_mem a he))
    rw [List.foldl_cons]
    refine ⟨ih1, fun p c hc => ih2 p c (h2 p c hc), ?_⟩
    intro e he hguard
    rcases List.mem_cons.mp he with he1 | he2
    · subst he1
      exact reach_mono _ _ ih2 (h3 hguard)
    · exact ih3 e he2 hguard

theorem toLoc_inRange {W H : Nat} (v : Fin W × Fin H) :
    inRange W H (toLoc v) := by
  obtain ⟨⟨v1, hv1⟩, ⟨v2, hv2⟩⟩ := v
  unfold toLoc inRange
  dsimp only
  exact ⟨by omega, by omega, by omega, by omega⟩

theorem toLoc_inj {W H : Nat} {a b : Fin W × Fin H}
    (h : toLoc a = toLoc b) : a = b := by
  obtain ⟨⟨a1, ha1⟩, ⟨a2, ha2⟩⟩ := a
  obtain ⟨⟨b1, hb1⟩, ⟨b2, hb2⟩⟩ := b
  unfold toLoc at h
  rw [GridLocation.mk.injEq] at h
  obtain ⟨h1, h2⟩ := h
  rw [Prod.mk.injEq]
  constructor
  · apply Fin.ext
    dsimp only at h1 ⊢
    omega
  · apply Fin.ext
    dsimp only at h2 ⊢
    omega

theorem toLoc_locToV (W H : Nat) (p : GridLocation) (hp : inRange W H p) :
    toLoc (locToV W H p hp) = p := by
  obtain ⟨px, py⟩ := p
  have hp' : 0 ≤ px ∧ px < (W : Int) ∧ 0 ≤ py ∧ py < (H : Int) := hp
  unfold toLoc locToV
  rw [GridLocation.mk.injEq]
  dsimp only
  constructor
  · omega
  · omega

theorem locToV_toLoc (W H : Nat) (v : Fin W × Fin H)
    (hv : inRange W H (toLoc v)) : locToV W H (toLoc v) hv = v := by
  obtain ⟨⟨v1, hv1⟩, ⟨v2, hv2⟩⟩ := v
  unfold locToV toLoc
  rw [Prod.mk.injEq]
  constructor
  · apply Fin.ext
    dsimp only
    omega
  · apply Fin.ext
    dsimp only
    omega

/-- A walk in any graph on the grid vertices maps to reflexive-transitive
steps of any relation that covers its adjacency. -/
theorem walk_to_reach {W H : Nat} (G2 : SimpleGraph (Fin W × Fin H))
    (R : GridLocation → GridLocation → Prop)
    (hAdj : ∀ x y : Fin W × Fin H, G2.Adj x y → R (toLoc x) (toLoc y)) :
    ∀ {u v : Fin W × Fin H}, G2.Walk u v →
      Relation.ReflTransGen R (toLoc u) (toLoc v) := by
  intro u v wk
  induction wk with
  | nil => exact Relation.ReflTransGen.refl
  | cons h p2 ih => exact Relation.ReflTransGen.head (hAdj _ _ h) ih

/-- Claim C1: for every positive width `W` and height `H` and every
permutation `L` of the candidate edge list, the completed passage grid is
exactly the edge set of a spanning tree of the `W×H` grid graph: every
pair of in-range compact cells is mutually reachable through recorded
passages treated as bidirectional edges, exactly `W*H - 1` passages are
recorded in total, and the induced simple graph on the `W*H` cells is a
tree (connected and acyclic). -/
theorem claim_C1_spanning_tree (W H : Nat) (hW : 0 < W) (hH : 0 < H)
    (L : List (Int × Int × Char)) (hL : L.Perm (wallsList W H)) :
    (∀ p q, inRange W H p → inRange W H q →
        Reach (buildWays W H L) p q) ∧
      passTotal W H (buildWays W H L) = W * H - 1 ∧
      (mazeGraph W H (buildWays W H L)).IsTree := by
  obtain ⟨hSI, -, hedges⟩ := buildFold_inv W H L (initGoalGrid, initWayGrid)
    (stateInv_init W H) (fun e he => hL.mem_iff.mp he)
  obtain ⟨rep, d, hB⟩ := hSI
  have hB' : BInv W H (buildMaze W H L).1 (buildWays W H L) rep d := hB
  have hOK : WaysOK W H (buildWays W H L) := hB'.waysok
  have hE : ∀ x y : Int, 0 ≤ x → x < (W : Int) - 1 → 0 ≤ y → y < (H : Int) →
      Reach (buildWays W H L) ⟨x, y⟩ ⟨x + 1, y⟩ := by
    intro x y h1 h2 h3 h4
    have hmem : ((x, y, 'E') : Int × Int × Char) ∈ wallsList W H := by
      rw [mem_wallsList]
      refine ⟨Or.inl rfl, ?_⟩
      dsimp only
      omega
    have h5 := hedges (x, y, 'E') (hL.mem_iff.mpr hmem) (Or.inl ⟨rfl, h2⟩)
    have et : passTarget ⟨x, y⟩ 'E' = ⟨x + 1, y⟩ := by
      unfold passTarget
      rw [if_pos rfl]
    dsimp only at h5
    rw [et] at h5
    exact h5
  have hS : ∀ x y : Int, 0 ≤ x → x < (W : Int) → 0 ≤ y → y < (H : Int) - 1 →
      Reach (buildWays W H L) ⟨x, y⟩ ⟨x, y + 1⟩ := by
    intro x y h1 h2 h3 h4
    have hmem : ((x, y, 'S') : Int × Int × Char) ∈ wallsList W H := by
      rw [mem_wallsList]
      refine ⟨Or.inr rfl, ?_⟩
      dsimp only
      omega
    have h5 := hedges (x, y, 'S') (hL.mem_iff.mpr hmem) (Or.inr ⟨rfl, h4⟩)
    have et : passTarget ⟨x, y⟩ 'S' = ⟨x, y + 1⟩ := by
      unfold passTarget
      rw [if_neg (by decide)]
    dsimp only at h5
    rw [et] at h5
    exact h5
  have horigin : ∀ px py : Int, inRange W H ⟨px, py⟩ →
      Reach (buildWays W H L) ⟨px, py⟩ ⟨0, 0⟩ := by
    suffices hsuff : ∀ n : Nat, ∀ px py : Int, (px + py).toNat = n →
        inRange W H ⟨px, py⟩ → Reach (buildWays W H L) ⟨px, py⟩ ⟨0, 0⟩ by
      intro px py hp
      exact hsuff (px + py).toNat px py rfl hp
    intro n
    induction n using Nat.strong_induction_on with
    | _ n ihn =>
      intro px py hn hp
      have hp' : 0 ≤ px ∧ px < (W : Int) ∧ 0 ≤ py ∧ py < (H : Int) := hp
      obtain ⟨a1, a2, a3, a4⟩ := hp'
      by_cases hx0 : px = 0
      · by_cases hy0 : py = 0
        · rw [hx0, hy0]
          exact Relation.ReflTransGen.refl
        · have hstep := hS px (py - 1) a1 a2 (by omega) (by omega)
          have e2 : py - 1 + 1 = py := by omega
          rw [e2] at hstep
          have hp2 : 0 ≤ px ∧ px < (W : Int) ∧ 0 ≤ py - 1 ∧
              py - 1 < (H : Int) := by omega
          have ih2 := ihn (px + (py - 1)).toNat (by omega) px (py - 1) rfl hp2
          exact Relation.ReflTransGen.trans
            (reach_symm (buildWays W H L) hstep) ih2
      · have hstep := hE (px - 1) py (by omega) (by omega) a3 a4
        have e2 : px - 1 + 1 = px := by omega
        rw [e2] at hstep
        have hp2 : 0 ≤ px - 1 ∧ px - 1 < (W : Int) ∧ 0 ≤ py ∧
            py < (H : Int) := by omega
        have ih2 := ihn ((px - 1) + py).toNat (by omega) (px - 1) py rfl hp2
        exact Relation.ReflTransGen.trans
          (reach_symm (buildWays W H L) hstep) ih2
  have hconn : ∀ p q, inRange W H p → inRange W H q →
      Reach (buildWays W H L) p q := by
    intro p q hp hq
    obtain ⟨px, py⟩ := p
    obtain ⟨qx, qy⟩ := q
    exact Relation.ReflTransGen.trans (horigin px py hp)
      (reach_symm _ (horigin qx qy hq))
  have h00 : inRange W H (⟨0, 0⟩ : GridLocation) := by
    unfold inRange
    dsimp only
    omega
  have hrepeq : ∀ p q, inRange W H p → inRange W H q → rep p = rep q :=
    fun p q hp hq => (hB'.partition p q hp hq).mpr (hconn p q hp hq)
  have himg : (inRangeFinset W H).image rep = {rep ⟨0, 0⟩} := by
    apply Finset.eq_singleton_iff_unique_mem.mpr
    constructor
    · exact Finset.mem_image.mpr ⟨⟨0, 0⟩, mem_inRangeFinset.mpr h00, rfl⟩
    · intro x hx
      obtain ⟨q, hq, hrq⟩ := Finset.mem_image.mp hx
      rw [← hrq]
      exact hrepeq q ⟨0, 0⟩ (mem_inRangeFinset.mp hq) h00
  have hct : compTotal W H rep = 1 := by
    unfold compTotal
    rw [himg]
    exact Finset.card_singleton _
  have htotal := hB'.total
  have hcount : passTotal W H (buildWays W H L) = W * H - 1 := by
    omega
  have hkey : ∀ (u : Fin W × Fin H) (c : GridLocation),
      Reach (buildWays W H L) (toLoc u) c → ∀ hc : inRange W H c,
        (mazeGraph W H (buildWays W H L)).Reachable u (locToV W H c hc) := by
    intro u c hr
    induction hr with
    | refl =>
      intro hc
      rw [locToV_toLoc]
    | @tail b c2 h1 hstep ih =>
      intro hc
      have hbin := (adj_inRange W H (buildWays W H L) hOK hstep).1
      have hadj2 : (mazeGraph W H (buildWays W H L)).Adj
          (locToV W H b hbin) (locToV W H c2 hc) := by
        show adjWays (buildWays W H L) (toLoc (locToV W H b hbin))
          (toLoc (locToV W H c2 hc))
        rw [toLoc_locToV, toLoc_locToV]
        exact hstep
      exact SimpleGraph.Reachable.trans (ih hbin) hadj2.reachable
  have hpre : (mazeGraph W H (buildWays W H L)).Preconnected := by
    intro u v
    have h1 := hkey u (toLoc v)
      (hconn (toLoc u) (toLoc v) (toLoc_inRange u) (toLoc_inRange v))
      (toLoc_inRange v)
    rwa [locToV_toLoc] at h1
  have hconnected : (mazeGraph W H (buildWays W H L)).Connected := by
    rw [SimpleGraph.connected_iff]
    exact ⟨hpre, ⟨(⟨0, hW⟩, ⟨0, hH⟩)⟩⟩
  have hacyc : (mazeGraph W H (buildWays W H L)).IsAcyclic := by
    rw [SimpleGraph.isAcyclic_iff_forall_adj_isBridge]
    intro u v hadj
    rw [SimpleGraph.isBridge_iff]
    refine ⟨hadj, ?_⟩
    intro hreach
    have hadj2 : adjWays (buildWays W H L) (toLoc u) (toLoc v) := hadj
    rw [adjWays_iff_passage] at hadj2
    obtain ⟨p, c, hcES, hm, hpq⟩ := hadj2
    obtain ⟨wk⟩ := hreach
    have hAdel : ∀ x y : Fin W × Fin H,
        ((mazeGraph W H (buildWays W H L)) \
          SimpleGraph.fromEdgeSet {s(u, v)}).Adj x y →
        adjWays (erasePass (buildWays W H L) p c) (toLoc x) (toLoc y) := by
      intro x y hxy
      rw [SimpleGraph.sdiff_adj] at hxy
      obtain ⟨hx1, hx2⟩ := hxy
      rw [SimpleGraph.fromEdgeSet_adj] at hx2
      have hx1' : adjWays (buildWays W H L) (toLoc x) (toLoc y) := hx1
      have hne2 : ¬ (s(x, y) : Sym2 (Fin W × Fin H)) = s(u, v) := by
        intro hcontra
        exact hx2 ⟨by rw [hcontra]; exact Set.mem_singleton _, hx1.ne⟩
      apply adj_erase_of_ne (buildWays W H L) p c (hB'.counts p c) hx1'
      rintro (⟨hxp, hyt⟩ | ⟨hyp, hxt⟩)
      · rcases hpq with ⟨hup, hvt⟩ | ⟨hvp, hut⟩
        · have hxu : x = u := toLoc_inj (hxp.trans hup.symm)
          have hyv : y = v := toLoc_inj (hyt.trans hvt.symm)
          exact hne2 (by rw [hxu, hyv])
        · have hxv : x = v := toLoc_inj (hxp.trans hvp.symm)
          have hyu : y = u := toLoc_inj (hyt.trans hut.symm)
          refine hne2 ?_
          rw [hxv, hyu]
          exact Sym2.eq_swap
      · rcases hpq with ⟨hup, hvt⟩ | ⟨hvp, hut⟩
        · have hyu : y = u := toLoc_inj (hyp.trans hup.symm)
          have hxv : x = v := toLoc_inj (hxt.trans hvt.symm)
          refine hne2 ?_
          rw [hxv, hyu]
          exact Sym2.eq_swap
        · have hyv : y = v := toLoc_inj (hyp.trans hvp.symm)
          have hxu : x = u := toLoc_inj (hxt.trans hut.symm)
          exact hne2 (by rw [hxu, hyv])
    have hrtc := walk_to_reach _ _ hAdel wk
    rcases hpq with ⟨hup, hvt⟩ | ⟨hvp, hut⟩
    · apply hB'.bridges p c hm
      rw [hup, hvt] at hrtc
      exact hrtc
    · apply hB'.bridges p c hm
      rw [hvp, hut] at hrtc
      exact reach_symm (erasePass (buildWays W H L) p c) hrtc
  exact ⟨hconn, hcount, hconnected, hacyc⟩

/-- Witness for C1 at `W = H = 1` with the identity permutation. -/
theorem claim_C1_witness :
    (∀ p q, inRange 1 1 p → inRange 1 1 q →
        Reach (buildWays 1 1 (wallsList 1 1)) p q) ∧
      passTotal 1 1 (buildWays 1 1 (wallsList 1 1)) = 1 * 1 - 1 ∧
      (mazeGraph 1 1 (buildWays 1 1 (wallsList 1 1))).IsTree :=
  claim_C1_spanning_tree 1 1 (by decide) (by decide) (wallsList 1 1)
    (List.Perm.refl _)
